import Mathlib

/-!
Verification of the OMML-to-LaTeX converter (`src/V3/omml_2_latex.py`,
class `DirectOmmlToLatex`).

The converter walks an XML tree of math markup and emits a LaTeX string.
We embed the tree shallowly: an element has a (local) tag, an optional
`m:val` attribute (the only attribute the code ever reads), a text payload
(meaningful on `m:t` elements) and a list of children.  The code compares
tags with `tag.split('}')[-1]` and with `tag.endswith(...)`; since every
tag is either plain or namespaced as `{...schema...}local`, and every
suffix tested contains no `}`, `endswith` on the full tag agrees with
`endswith` on the local tag, so we store local tags only.

Strings are modelled as `List Char`; each concrete `re.sub` call of the
source is embedded as a dedicated executable scanner implementing that
pattern's leftmost, non-overlapping match-and-replace semantics.
-/

set_option autoImplicit false

namespace Omml

/-! ### Character classes -/

/-- Whitespace as matched by Python's `\s` / `str.strip()` (ASCII part;
the program only ever produces these whitespace characters). -/
def isWsPy (c : Char) : Bool :=
  c = ' ' || c = '\t' || c = '\n' || c = '\r' || c = '\x0b' || c = '\x0c'

def isLowerAZ (c : Char) : Bool := 'a' ≤ c && c ≤ 'z'

def isUpperAZ (c : Char) : Bool := 'A' ≤ c && c ≤ 'Z'

def isAsciiAlpha (c : Char) : Bool := isLowerAZ c || isUpperAZ c

def isDigit09 (c : Char) : Bool := '0' ≤ c && c ≤ '9'

def isAlnumAscii (c : Char) : Bool := isAsciiAlpha c || isDigit09 c

/-- Python's `\w` word characters (ASCII fragment, enough for the texts
this program manipulates). -/
def isWordPy (c : Char) : Bool := isAlnumAscii c || c = '_'

/-- The exact lowercase-Greek character group of the differential rule
`([a-z])d([αβγδεζηθικλμνξοπρστυφχψω])` in `parse_r`. -/
def greekGroup : List Char :=
  ['α','β','γ','δ','ε','ζ','η','θ','ι','κ','λ','μ','ν','ξ','ο','π','ρ','σ','τ','υ','φ','χ','ψ','ω']

def isGreekGroup (c : Char) : Bool := greekGroup.contains c

/-- Python `str.isalpha` restricted to the alphabets this program can
meet: ASCII letters, the Greek and Coptic block, and the double-struck
differential `ⅆ`.  (Full Unicode alphabet tables are out of scope; every
character the converter's tables and rules mention falls in these ranges.) -/
def isalphaPy (c : Char) : Bool :=
  isAsciiAlpha c || (0x370 ≤ c.toNat && c.toNat ≤ 0x3FF) || c = 'ⅆ'

/-! ### List-of-characters utilities -/

/-- `pre` is a prefix of `cs` (Boolean, by direct recursion). -/
def startsWithL : List Char → List Char → Bool
  | [], _ => true
  | _ :: _, [] => false
  | p :: ps, c :: cs => p == c && startsWithL ps cs

/-- `pat` occurs as a contiguous substring of `cs` (Python's `in`). -/
def containsSub (pat : List Char) : List Char → Bool
  | [] => startsWithL pat []
  | c :: cs => startsWithL pat (c :: cs) || containsSub pat cs

/-- `t.endsWith(suf)` over the character lists (the library byte-based
test does not reduce in the kernel). -/
def endsWithStr (t suf : String) : Bool :=
  startsWithL suf.data.reverse t.data.reverse

/-- Python `str.strip()`. -/
def stripPy (cs : List Char) : List Char :=
  ((cs.dropWhile isWsPy).reverse.dropWhile isWsPy).reverse

/-- Python `str.lower()` (ASCII fragment). -/
def toLowerL (cs : List Char) : List Char := cs.map Char.toLower

/-! ### The tree data model -/

/-- An XML element as the converter sees it: local tag, the optional
`m:val` attribute, text payload, children in document order. -/
inductive Elem : Type where
  | mk : String → Option String → List Char → List Elem → Elem

def Elem.tag : Elem → String
  | .mk t _ _ _ => t

def Elem.attrVal : Elem → Option String
  | .mk _ v _ _ => v

def Elem.text : Elem → List Char
  | .mk _ _ tx _ => tx

def Elem.children : Elem → List Elem
  | .mk _ _ _ cs => cs

mutual

def Elem.size : Elem → Nat
  | .mk _ _ _ cs => 1 + sizeL cs

def sizeL : List Elem → Nat
  | [] => 0
  | e :: es => Elem.size e + sizeL es

end

/-- `elem.find('m:t')`: first direct child with the given tag. -/
def findChild (e : Elem) (t : String) : Option Elem :=
  e.children.find? (fun c => c.tag = t)

mutual

/-- Search a forest (children of a node whose tag is `pt`) for the first
element with tag `t` in document order, returning it with its parent's
tag. -/
def findInL (t : String) (pt : String) : List Elem → Option (String × Elem)
  | [] => none
  | c :: cs =>
    if c.tag = t then some (pt, c)
    else
      match findInE t c with
      | some r => some r
      | none => findInL t pt cs

def findInE (t : String) : Elem → Option (String × Elem)
  | .mk tg _ _ cs => findInL t tg cs

end

/-- `elem.find('.//m:x')`: first proper descendant with tag `t` in
document order, together with its parent's tag. -/
def findDescP (e : Elem) (t : String) : Option (String × Elem) :=
  findInL t e.tag e.children

mutual

/-- Walk a forest of proper descendants in document order; at each
element tagged `pa`, yield its first child tagged `ch` (ElementPath's
evaluation order for the path `.//pa/ch`). -/
def findDCL (pa ch : String) : List Elem → Option Elem
  | [] => none
  | m :: ms =>
    match findDCE pa ch m with
    | some r => some r
    | none => findDCL pa ch ms

def findDCE (pa ch : String) : Elem → Option Elem
  | .mk tg _ _ cs =>
    match (if tg = pa then cs.find? (fun c => c.tag = ch) else none) with
    | some r => some r
    | none => findDCL pa ch cs

end

/-- `elem.find('.//m:pa/m:ch')`: ElementPath iterates the proper
descendants tagged `pa` in document order and returns the first matching
`ch` child found. -/
def findDC (e : Elem) (pa ch : String) : Option Elem :=
  findDCL pa ch e.children

mutual

/-- Collect the text of every proper-descendant `m:t` element, in
document order (`elem.xpath('.//m:t/text()')` joined). -/
def collectTL : List Elem → List Char
  | [] => []
  | c :: cs => collectTE c ++ collectTL cs

def collectTE : Elem → List Char
  | .mk tg _ tx cs => (if tg = "t" then tx else []) ++ collectTL cs

end

/-- All descendant texts of `e` itself (children forest). -/
def collectT (e : Elem) : List Char := collectTL e.children

/-! ### The symbol and function tables (`MATH_SYMBOLS`, `FUNCTION_NAMES`) -/

/-- `MATH_SYMBOLS`, in source (insertion) order.  Every key is a single
character, so the scanning loop of `smart_symbol_convert` reduces to a
per-character lookup. -/
def MATH_SYMBOLS : List (Char × String) :=
  [('≠', "\\neq"), ('≤', "\\leq"), ('≥', "\\geq"), ('±', "\\pm"), ('×', "\\times"),
   ('÷', "\\div"), ('·', "\\cdot"), ('≈', "\\approx"), ('≡', "\\equiv"), ('∼', "\\sim"),
   ('∈', "\\in"), ('∉', "\\notin"), ('⊂', "\\subset"), ('⊆', "\\subseteq"),
   ('∪', "\\cup"), ('∩', "\\cap"), ('∅', "\\emptyset"), ('∧', "\\land"), ('∨', "\\lor"),
   ('¬', "\\neg"), ('∀', "\\forall"), ('∃', "\\exists"), ('→', "\\rightarrow"),
   ('←', "\\leftarrow"), ('↔', "\\leftrightarrow"), ('⇒', "\\Rightarrow"),
   ('α', "\\alpha"), ('β', "\\beta"), ('γ', "\\gamma"), ('δ', "\\delta"), ('ε', "\\epsilon"),
   ('θ', "\\theta"), ('λ', "\\lambda"), ('μ', "\\mu"), ('π', "\\pi"), ('σ', "\\sigma"),
   ('τ', "\\tau"), ('φ', "\\phi"), ('ψ', "\\psi"), ('ω', "\\omega"),
   ('Γ', "\\Gamma"), ('Δ', "\\Delta"), ('Σ', "\\Sigma"), ('Ω', "\\Omega"),
   ('∂', "\\partial"), ('∇', "\\nabla"), ('∑', "\\sum"), ('∏', "\\prod"), ('∫', "\\int"),
   ('∞', "\\infty"), ('√', "\\sqrt"), ('∠', "\\angle"), ('⊥', "\\perp"), ('∥', "\\parallel"),
   ('…', "\\ldots"), ('∴', "\\therefore"), ('∵', "\\because"), ('°', "^\\circ"),
   ('υ', "\\upsilon"), ('ϒ', "\\Upsilon"),
   ('ⅆ', "\\, d"),
   ('∓', "\\mp")]

def lookupSym (c : Char) : Option String :=
  (MATH_SYMBOLS.find? (fun p => p.1 == c)).map Prod.snd

/-- `FUNCTION_NAMES`, in source (insertion) order. -/
def FUNCTION_NAMES : List (String × String) :=
  [("sin", "\\sin"), ("cos", "\\cos"), ("tan", "\\tan"), ("sec", "\\sec"),
   ("csc", "\\csc"), ("cot", "\\cot"), ("arcsin", "\\arcsin"), ("arccos", "\\arccos"),
   ("sinh", "\\sinh"), ("cosh", "\\cosh"), ("tanh", "\\tanh"), ("log", "\\log"),
   ("ln", "\\ln"), ("exp", "\\exp"), ("lim", "\\lim"), ("sup", "\\sup"), ("inf", "\\inf"),
   ("min", "\\min"), ("max", "\\max"), ("det", "\\det"), ("dim", "\\dim")]

/-! ### Generic substitution scanners

Each concrete `re.sub(pattern, repl, s)` of the source is embedded as a
scanner that walks the string left to right; at each position a
`try`-function either recognises the pattern (returning the replacement
and the rest of the string after the consumed match) or fails, in which
case one character is emitted unchanged.  This is exactly `re.sub`'s
leftmost, non-overlapping semantics for the patterns at hand (none of
them can match the empty string).  The fuel argument is always run with
the string's length, which suffices because a match consumes at least
one character. -/

def scanStep (tm : List Char → Option (List Char × List Char)) :
    Nat → List Char → List Char
  | 0, cs => cs
  | _ + 1, [] => []
  | fuel + 1, c :: cs =>
    match tm (c :: cs) with
    | some (repl, rest) => repl ++ scanStep tm fuel rest
    | none => c :: scanStep tm fuel cs

def runScan (tm : List Char → Option (List Char × List Char)) (cs : List Char) :
    List Char :=
  scanStep tm cs.length cs

/-- Scanner with access to the already-scanned original characters in
reverse order (for lookbehind / word-boundary conditions).  The
`try`-function returns (consumed original characters, replacement, rest). -/
def scanPrev (tm : List Char → List Char → Option (List Char × List Char × List Char)) :
    Nat → List Char → List Char → List Char
  | 0, _, cs => cs
  | _ + 1, _, [] => []
  | fuel + 1, prev, c :: cs =>
    match tm prev (c :: cs) with
    | some (consumed, repl, rest) => repl ++ scanPrev tm fuel (consumed.reverse ++ prev) rest
    | none => c :: scanPrev tm fuel (c :: prev) cs

def runScanPrev
    (tm : List Char → List Char → Option (List Char × List Char × List Char))
    (cs : List Char) : List Char :=
  scanPrev tm cs.length [] cs

/-- Suffix test. -/
def endsWithL (suf cs : List Char) : Bool := startsWithL suf.reverse cs.reverse

/-! ### `smart_symbol_convert` -/

def headIsBackslash : List Char → Bool
  | '\\' :: _ => true
  | _ => false

/-- `smart_symbol_convert`: substitute table symbols; when a substituted
command starts with a backslash and the next character is alphabetic,
insert a separating space. -/
def smartSym : List Char → List Char
  | [] => []
  | c :: cs =>
    match lookupSym c with
    | some v =>
      v.data ++
        (if headIsBackslash v.data &&
            (match cs with | d :: _ => isalphaPy d | [] => false)
         then [' '] else []) ++ smartSym cs
    | none => c :: smartSym cs

/-! ### `convert_function_names` -/

/-- One `re.sub(r'\b<name>(?=\s|\(|$)', repl, text)` pass: `name` at a word
boundary, followed by whitespace, an opening parenthesis, or the end. -/
def tryFunc (nm rp : List Char) (prev cs : List Char) :
    Option (List Char × List Char × List Char) :=
  if (match prev with | [] => true | p :: _ => !isWordPy p) && startsWithL nm cs then
    let rest := cs.drop nm.length
    if (match rest with | [] => true | r :: _ => isWsPy r || r = '(') then
      some (nm, rp, rest)
    else none
  else none

def substFunc (nm rp : List Char) (cs : List Char) : List Char :=
  runScanPrev (tryFunc nm rp) cs

/-- `convert_function_names`: skipped entirely when the text already
starts with a backslash; otherwise the 21 word substitutions run in
table order, each over the previous result. -/
def convFuncNames (cs : List Char) : List Char :=
  if headIsBackslash cs then cs
  else FUNCTION_NAMES.foldl (fun acc p => substFunc p.1.data p.2.data acc) cs

/-! ### The `parse_r` text pre-processing rules -/

def replMinus (cs : List Char) : List Char :=
  cs.map (fun c => if c = '−' then '-' else c)

/-- `re.sub(r'([a-z])ⅆ([a-z])ⅆ', r'\1 \, d\2 \, d', text)`. -/
def tryDD2 : List Char → Option (List Char × List Char)
  | c1 :: 'ⅆ' :: c2 :: 'ⅆ' :: rest =>
    if isLowerAZ c1 && isLowerAZ c2 then
      some ([c1, ' ', '\\', ',', ' ', 'd', c2, ' ', '\\', ',', ' ', 'd'], rest)
    else none
  | _ => none

/-- `re.sub(r'([a-z])ⅆ', r'\1 \, d', text)`. -/
def tryDD1 : List Char → Option (List Char × List Char)
  | c1 :: 'ⅆ' :: rest =>
    if isLowerAZ c1 then some ([c1, ' ', '\\', ',', ' ', 'd'], rest) else none
  | _ => none

/-- `re.sub(r'([a-z])d([a-z])d\b', r'\1 \, d\2 \, d', text)`. -/
def tryDad : List Char → Option (List Char × List Char)
  | c1 :: 'd' :: c2 :: 'd' :: rest =>
    if isLowerAZ c1 && isLowerAZ c2 &&
        (match rest with | [] => true | r :: _ => !isWordPy r) then
      some ([c1, ' ', '\\', ',', ' ', 'd', c2, ' ', '\\', ',', ' ', 'd'], rest)
    else none
  | _ => none

/-- `re.sub(r'([a-z])d([αβγδεζηθικλμνξοπρστυφχψω])', r'\1 \, d\2', text)`. -/
def tryDGreek : List Char → Option (List Char × List Char)
  | c1 :: 'd' :: g :: rest =>
    if isLowerAZ c1 && isGreekGroup g then
      some ([c1, ' ', '\\', ',', ' ', 'd', g], rest)
    else none
  | _ => none

/-- A command alternation followed by one character of a class, replaced
by the command, a space, and the character (used by several fix rules). -/
def tryAltCmdSpace (alts : List String) (cls : Char → Bool) (cs : List Char) :
    Option (List Char × List Char) :=
  match alts with
  | [] => none
  | a :: as' =>
    if startsWithL a.data cs then
      match cs.drop a.data.length with
      | l :: rest => if cls l then some (a.data ++ [' ', l], rest) else none
      | [] => none
    else tryAltCmdSpace as' cls cs

/-- `re.sub(r'(\\gamma|\\alpha|\\beta|\\delta|\\theta|\\sigma)([a-z])', r'\1 \2', text)`. -/
def greekSpaceFix (cs : List Char) : List Char :=
  runScan (tryAltCmdSpace ["\\gamma", "\\alpha", "\\beta", "\\delta", "\\theta", "\\sigma"]
    isLowerAZ) cs

/-- The full text pipeline of `parse_r`, applied to the collected run text. -/
def parseRtext (tx : List Char) : List Char :=
  convFuncNames (greekSpaceFix (smartSym
    (runScan tryDGreek (runScan tryDad (runScan tryDD1 (runScan tryDD2
      (replMinus tx)))))))

/-! ### `clean_output` -/

/-- `re.sub(r'(?<!\\[a-zA-Z])\{([a-zA-Z0-9])\}', r'\1', latex)`: strip the
braces around a single alphanumeric character unless the two preceding
characters are a backslash followed by a letter. -/
def tryBrace1 (prev cs : List Char) : Option (List Char × List Char × List Char) :=
  match cs with
  | '{' :: c :: '}' :: rest =>
    if isAlnumAscii c &&
        !(match prev with | p1 :: p2 :: _ => p2 = '\\' && isAsciiAlpha p1 | _ => false) then
      some (['{', c, '}'], [c], rest)
    else none
  | _ => none

/-- `re.sub(r'\{\{([^}]+)\}\}', r'{\1}', latex)`. -/
def tryBrace2 : List Char → Option (List Char × List Char)
  | '{' :: '{' :: rest =>
    let run := rest.takeWhile (fun c => c != '}')
    if run.isEmpty then none
    else
      match rest.drop run.length with
      | '}' :: '}' :: rest2 => some ('{' :: run ++ ['}'], rest2)
      | _ => none
  | _ => none

def firstNonWs (cs : List Char) : Option Char := (cs.dropWhile isWsPy).head?

/-- `re.sub(r'\s+_', '_', latex)`: a whitespace character is deleted
exactly when only whitespace stands between it and a following `_`. -/
def wsUnd : List Char → List Char
  | [] => []
  | c :: rest =>
    if isWsPy c && firstNonWs rest == some '_' then wsUnd rest else c :: wsUnd rest

/-- `re.sub(r'\s+\^', '^', latex)`. -/
def wsCar : List Char → List Char
  | [] => []
  | c :: rest =>
    if isWsPy c && firstNonWs rest == some '^' then wsCar rest else c :: wsCar rest

/-- `re.sub(r'(\\partial)([a-zA-Z])', r'\1 \2', latex)`. -/
def partialFix (cs : List Char) : List Char :=
  runScan (tryAltCmdSpace ["\\partial"] isAsciiAlpha) cs

/-- `re.sub(r'\\frac([a-zA-Z0-9])\{', r'\\frac{\1}{', latex)`. -/
def tryFracBrace (cs : List Char) : Option (List Char × List Char) :=
  if startsWithL "\\frac".data cs then
    match cs.drop 5 with
    | c :: '{' :: rest =>
      if isAlnumAscii c then some ("\\frac\x7b".data ++ [c] ++ "\x7d\x7b".data, rest) else none
    | _ => none
  else none

def fracBraceFix (cs : List Char) : List Char := runScan tryFracBrace cs

/-- Complex-structure markers that make `clean_output` skip the
aggressive brace-stripping. -/
def hasMarker (cs : List Char) : Bool :=
  containsSub "\\binom".data cs || containsSub "\\left".data cs ||
  containsSub "\\right".data cs || containsSub "\\begin".data cs

/-- `clean_output`. -/
def cleanOutput (cs : List Char) : List Char :=
  if hasMarker cs then
    fracBraceFix (partialFix (wsCar (wsUnd cs)))
  else
    fracBraceFix (partialFix (wsCar (wsUnd
      (runScan tryBrace2 (runScanPrev tryBrace1 cs)))))

/-! ### `apply_post_processing` -/

/-- `re.sub(r'\\binom([a-zA-Z])([a-zA-Z])', r'\\binom{\1}{\2}', latex)`. -/
def tryBinomBrace (cs : List Char) : Option (List Char × List Char) :=
  if startsWithL "\\binom".data cs then
    match cs.drop 6 with
    | c1 :: c2 :: rest =>
      if isAsciiAlpha c1 && isAsciiAlpha c2 then
        some ("\\binom\x7b".data ++ [c1] ++ "\x7d\x7b".data ++ [c2] ++ ['}'], rest)
      else none
    | _ => none
  else none

/-- First index at which `seg` occurs in `cs` such that the characters
before the occurrence contain no newline (the gap is matched by a lazy
`(.*?)` whose `.` does not match `\n`). -/
def findOcc (seg : List Char) : List Char → Option Nat
  | [] => if startsWithL seg [] then some 0 else none
  | c :: cs =>
    if startsWithL seg (c :: cs) then some 0
    else if c = '\n' then none
    else (findOcc seg cs).map (· + 1)

/-- Backtracking loop of `re.sub(r'(e\^{[^}]+}[a-z]+)(.*?)\1', r'\1\2', latex)`:
the greedy `[a-z]+` tries the longest length first; for a fixed group the
lazy gap takes the first later occurrence of the group. -/
def tryESupLoop (base run2 tail : List Char) : Nat → Option (List Char × List Char)
  | 0 => none
  | k + 1 =>
    let seg := base ++ run2.take (k + 1)
    let after := run2.drop (k + 1) ++ tail
    match findOcc seg after with
    | some i =>
      some (seg ++ after.take i, (after.drop i).drop seg.length)
    | none => tryESupLoop base run2 tail k

def tryESup : List Char → Option (List Char × List Char)
  | 'e' :: '^' :: '{' :: rest =>
    let run1 := rest.takeWhile (fun c => c != '}')
    if run1.isEmpty then none
    else
      match rest.drop run1.length with
      | '}' :: rest2 =>
        let run2 := rest2.takeWhile isLowerAZ
        if run2.isEmpty then none
        else
          tryESupLoop ('e' :: '^' :: '{' :: run1 ++ ['}']) run2
            (rest2.drop run2.length) run2.length
      | _ => none
  | _ => none

def dedupESup (cs : List Char) : List Char := runScan tryESup cs

/-- `re.sub(r'([a-zA-Z]+)\\left\(([^)]+)\\right\)\1', r'\1\\left(\2\right)', latex)`. -/
def tryWordDedup (cs : List Char) : Option (List Char × List Char) :=
  let w := cs.takeWhile isAsciiAlpha
  if w.isEmpty then none
  else
    let afterW := cs.drop w.length
    if startsWithL "\\left(".data afterW then
      let inner := (afterW.drop 6).takeWhile (fun c => c != ')')
      if endsWithL "\\right".data inner && decide (6 < inner.length) then
        match (afterW.drop 6).drop inner.length with
        | ')' :: rest2 =>
          if startsWithL w rest2 then
            some (w ++ "\\left(".data ++ inner ++ [')'], rest2.drop w.length)
          else none
        | _ => none
      else none
    else none

def dedupWord (cs : List Char) : List Char := runScan tryWordDedup cs

def upsilonFix (cs : List Char) : List Char :=
  runScan (tryAltCmdSpace ["\\upsilon"] isAsciiAlpha) cs

def gammaFix (cs : List Char) : List Char :=
  runScan (tryAltCmdSpace ["\\gamma"] isAsciiAlpha) cs

/-- `re.sub(r'\\rightarrow([A-Z][a-z])', r'\\rightarrow \1', latex)`. -/
def tryRightarrow (cs : List Char) : Option (List Char × List Char) :=
  if startsWithL "\\rightarrow".data cs then
    match cs.drop 11 with
    | u :: l :: rest =>
      if isUpperAZ u && isLowerAZ l then
        some ("\\rightarrow ".data ++ [u, l], rest)
      else none
    | _ => none
  else none

def rightarrowFix (cs : List Char) : List Char := runScan tryRightarrow cs

/-- `latex.replace('⋅', r'\cdot')`. -/
def cdotChar (cs : List Char) : List Char :=
  cs.flatMap (fun c => if c = '⋅' then "\\cdot".data else [c])

/-- `re.sub(r'(\\lim[^}]*})\s*\\lim\s', r'\1 ', latex)`. -/
def tryLimDedup (cs : List Char) : Option (List Char × List Char) :=
  if startsWithL "\\lim".data cs then
    let run := (cs.drop 4).takeWhile (fun c => c != '}')
    match (cs.drop 4).drop run.length with
    | '}' :: rest2 =>
      let rest3 := rest2.dropWhile isWsPy
      if startsWithL "\\lim".data rest3 then
        match rest3.drop 4 with
        | w :: rest4 =>
          if isWsPy w then some ("\\lim".data ++ run ++ ['}', ' '], rest4) else none
        | [] => none
      else none
    | _ => none
  else none

def limDedup (cs : List Char) : List Char := runScan tryLimDedup cs

def existsForallFix (cs : List Char) : List Char :=
  runScan (tryAltCmdSpace ["\\exists", "\\forall"] isAsciiAlpha) cs

/-- `re.sub(r'\\left\(\\binom\{([^}]+)\}\{([^}]+)\}\\right\)', r'\\binom{\1}{\2}', latex)`. -/
def tryBinomParen (cs : List Char) : Option (List Char × List Char) :=
  if startsWithL "\\left(\\binom\x7b".data cs then
    let rest := cs.drop 13
    let run1 := rest.takeWhile (fun c => c != '}')
    if run1.isEmpty then none
    else
      match rest.drop run1.length with
      | '}' :: '{' :: rest2 =>
        let run2 := rest2.takeWhile (fun c => c != '}')
        if run2.isEmpty then none
        else
          match rest2.drop run2.length with
          | '}' :: rest3 =>
            if startsWithL "\\right)".data rest3 then
              some ("\\binom\x7b".data ++ run1 ++ "\x7d\x7b".data ++ run2 ++ ['}'], rest3.drop 7)
            else none
          | _ => none
      | _ => none
  else none

def binomParenFix (cs : List Char) : List Char := runScan tryBinomParen cs

def cdotSpace (cs : List Char) : List Char :=
  runScan (tryAltCmdSpace ["\\cdot"] isAsciiAlpha) cs

def approxFix (cs : List Char) : List Char :=
  runScan (tryAltCmdSpace ["\\approx", "\\equiv", "\\sim"] isDigit09) cs

/-- `apply_post_processing`, all fourteen fixes in source order. -/
def applyPost (cs : List Char) : List Char :=
  cdotSpace (approxFix (cdotSpace (binomParenFix (existsForallFix (limDedup
    (cdotChar (rightarrowFix (gammaFix (upsilonFix (partialFix (dedupWord
      (dedupESup (runScan tryBinomBrace cs)))))))))))))

/-- The root-level normalization pass: `clean_output` followed by
`apply_post_processing`, as `parse_oMath` applies them. -/
def normalizeRoot (cs : List Char) : List Char := applyPost (cleanOutput cs)

/-! ### The node converter

Each `parse_<tag>` handler becomes a function taking the recursive
conversion `pr` as a parameter; `pr` receives the parsed element's
tree-parent tag (the only context the source ever reads from a parent,
via `elem.getparent().tag` in `parse_f`) and the element.  The recursion
is tied with a fuel parameter and run with the tree size, which is shown
sufficient below. -/

/-- Python string splitting `s.split(sep)` for a non-empty separator. -/
def splitGo (sep : List Char) : Nat → List Char → List Char → List (List Char)
  | 0, acc, cs => [acc.reverse ++ cs]
  | _ + 1, acc, [] => [acc.reverse]
  | fuel + 1, acc, c :: cs =>
    if startsWithL sep (c :: cs) then
      acc.reverse :: splitGo sep fuel [] ((c :: cs).drop sep.length)
    else splitGo sep fuel (c :: acc) cs

def splitOnL (sep cs : List Char) : List (List Char) :=
  splitGo sep (cs.length + 1) [] cs

def pyStrIsAlpha (xs : List Char) : Bool := !xs.isEmpty && xs.all isalphaPy

/-- `elem.getparent() is not None and elem.getparent().tag.endswith('d')`. -/
def parentEndsD : Option String → Bool
  | some t => endsWithStr t "d"
  | none => false

abbrev Rec := Option String → Elem → List Char

/-- `''.join(...)` over the non-empty results, as the default handler
builds it. -/
def joinNonEmpty (xs : List (List Char)) : List Char :=
  (xs.filter (fun r => !r.isEmpty)).flatten

/-- `parse_default` (also `parse_e`, `parse_num`, `parse_den`,
`parse_sub`, `parse_sup`, `parse_lim`, `parse_mr`). -/
def defaultH (pr : Rec) (e : Elem) : List Char :=
  joinNonEmpty (e.children.map (pr (some e.tag)))

/-- `parse_oMathPara`. -/
def oMathParaH (pr : Rec) (e : Elem) : List Char :=
  (e.children.map (pr (some e.tag))).flatten

/-- `parse_oMath`: join the children, then clean, then post-process. -/
def oMathH (pr : Rec) (e : Elem) : List Char :=
  normalizeRoot ((e.children.map (pr (some e.tag))).flatten)

/-- `parse_r`. -/
def rH (e : Elem) : List Char :=
  parseRtext (collectT e)

/-- Convert a direct child with the given tag, or `''` when absent (the
handlers' `self.parse(x) if x is not None else ''` idiom; the parent tag
handed to the recursion is the current element's). -/
def childStr (pr : Rec) (e : Elem) (t : String) : List Char :=
  match findChild e t with
  | some b => pr (some e.tag) b
  | none => []

/-- Convert the first descendant with the given tag, or `''` when absent;
the recursion receives the found node's actual parent tag. -/
def descStr (pr : Rec) (e : Elem) (t : String) : List Char :=
  match findDescP e t with
  | some (pt, x) => pr (some pt) x
  | none => []

def fracStr (num den : List Char) : List Char :=
  "\\frac\x7b".data ++ num ++ "\x7d\x7b".data ++ den ++ ['}']

def binomStr (num den : List Char) : List Char :=
  "\\binom\x7b".data ++ num ++ "\x7d\x7b".data ++ den ++ ['}']

/-- `parse_f`. -/
def fH (pr : Rec) (p : Option String) (e : Elem) : List Char :=
  let num := stripPy (descStr pr e "num")
  let den := stripPy (descStr pr e "den")
  if (num = ['1'] || num = ['2'] || num = ['3']) &&
      (den = ['2'] || den = ['3'] || den = ['4']) then
    fracStr num den
  else if num.length = 1 && den.length = 1 && pyStrIsAlpha num && pyStrIsAlpha den &&
      ((num = ['n'] && den = ['k']) || parentEndsD p) then
    binomStr num den
  else
    fracStr num den

/-- `parse_sSup`, including the defensive duplicate-collapsing for
bracketed bases with more than two `\int` occurrences. -/
def sSupH (pr : Rec) (e : Elem) : List Char :=
  let base := childStr pr e "e"
  let sup := childStr pr e "sup"
  let base :=
    if startsWithL "\\left[".data base then
      let parts := splitOnL "\\int".data base
      if parts.length - 1 > 2 && parts.length > 3 then
        "\\left[".data ++ List.intercalate "\\int".data (parts.take 3) ++ "\\right]".data
      else base
    else base
  let base := if !hasMarker base then cleanOutput base else base
  base ++ "^\x7b".data ++ sup ++ ['}']

/-- `parse_sSub`. -/
def sSubH (pr : Rec) (e : Elem) : List Char :=
  let base := childStr pr e "e"
  let sb := childStr pr e "sub"
  cleanOutput base ++ "_\x7b".data ++ sb ++ ['}']

/-- `parse_sSubSup`. -/
def sSubSupH (pr : Rec) (e : Elem) : List Char :=
  let base := childStr pr e "e"
  let sb := childStr pr e "sub"
  let sp := childStr pr e "sup"
  cleanOutput base ++ "_\x7b".data ++ sb ++ "\x7d^\x7b".data ++ sp ++ ['}']

/-- `parse_nary`: operator character from `.//m:naryPr/m:chr` (value
default `∫`, also `∫` when the element is absent), then optional lower
and upper limits, then the operand with a leading space. -/
def naryH (pr : Rec) (e : Elem) : List Char :=
  let opVal : String := match findDC e "naryPr" "chr" with
    | some c => c.attrVal.getD "∫"
    | none => "∫"
  smartSym opVal.data ++
    (if (findChild e "sub").isSome then "_\x7b".data ++ childStr pr e "sub" ++ ['}'] else []) ++
    (if (findChild e "sup").isSome then "^\x7b".data ++ childStr pr e "sup" ++ ['}'] else []) ++
    (if (findChild e "e").isSome then ' ' :: childStr pr e "e" else [])

/-- The degree-hidden test of `parse_rad`: some descendant `degHide`
element is present with `m:val` equal to `'1'`. -/
def degHidden (e : Elem) : Bool :=
  match findDescP e "degHide" with
  | some (_, h) => h.attrVal == some "1"
  | none => false

/-- `parse_rad`.  (When the `deg` child is absent `dt` is empty, so the
guard below coincides with the source's `deg_elem is not None` test.) -/
def radH (pr : Rec) (e : Elem) : List Char :=
  let expr := childStr pr e "e"
  let hidden := degHidden e
  if hidden then "\\sqrt\x7b".data ++ expr ++ ['}']
  else
    let dt := childStr pr e "deg"
    if !dt.isEmpty && !(stripPy dt).isEmpty then
      "\\sqrt[".data ++ dt ++ "]\x7b".data ++ expr ++ ['}']
    else "\\sqrt\x7b".data ++ expr ++ ['}']

/-- `parse_matrix`: rows are children whose tag ends in `mr`, cells are
row children whose tag ends in `e`; empty cell conversions and rows with
no surviving cells are dropped; with no surviving rows the result is
empty with no environment. -/
def matrixH (pr : Rec) (e : Elem) (mt : String) : List Char :=
  let rows := e.children.filterMap (fun r =>
    if endsWithStr r.tag "mr" then
      let cols := r.children.filterMap (fun c =>
        if endsWithStr c.tag "e" then
          let s := pr (some r.tag) c
          if s.isEmpty then none else some s
        else none)
      if cols.isEmpty then none else some (List.intercalate " & ".data cols)
    else none)
  if rows.isEmpty then []
  else
    "\\begin\x7b".data ++ mt.data ++ "\x7d ".data ++
      List.intercalate " \\\\ ".data rows ++ " \\end\x7b".data ++ mt.data ++ ['}']

/-- The resolved opening delimiter of `parse_d`: the `m:val` of the first
`begChr` descendant, with `(` as default. -/
def openDelim (e : Elem) : String :=
  match findDescP e "begChr" with
  | some (_, b) => b.attrVal.getD "("
  | none => "("

/-- The resolved closing delimiter of `parse_d` (default `)`). -/
def closeDelim (e : Elem) : String :=
  match findDescP e "endChr" with
  | some (_, b) => b.attrVal.getD ")"
  | none => ")"

/-- First grandchild that triggers a special branch in `parse_d`. -/
def firstSpecial (firstE : Elem) : Option Elem :=
  firstE.children.find? (fun g => endsWithStr g.tag "m" || endsWithStr g.tag "eqArr")

/-- `parse_d`. -/
def dH (pr : Rec) (e : Elem) : List Char :=
  let openD : String := openDelim e
  let closeD : String := closeDelim e
  let eKids := e.children.filter (fun c => endsWithStr c.tag "e")
  match eKids with
  | [] => []
  | firstE :: _ =>
    match firstSpecial firstE with
    | some g =>
      if endsWithStr g.tag "m" then
        let mt := if openD = "[" then "bmatrix"
          else if openD = "\x7b" then "Bmatrix"
          else if openD = "|" then "vmatrix"
          else "pmatrix"
        matrixH pr g mt
      else
        let content := pr (some firstE.tag) g
        if openD = "\x7b" && closeD = "" then
          "\\begin\x7bcases\x7d ".data ++ content ++ " \\end\x7bcases\x7d".data
        else content
    | none =>
      let inner := pr (some e.tag) firstE
      if openD = "(" && closeD = ")" then "\\left(".data ++ inner ++ "\\right)".data
      else if openD = "[" && closeD = "]" then "\\left[".data ++ inner ++ "\\right]".data
      else if openD = "\x7b" && closeD = "\x7d" then "\\left\\\x7b".data ++ inner ++ "\\right\\\x7d".data
      else if openD = "|" && closeD = "|" then "\\left|".data ++ inner ++ "\\right|".data
      else openD.data ++ inner ++ closeD.data

/-- `parse_func`. -/
def funcH (pr : Rec) (e : Elem) : List Char :=
  let fnameE := findChild e "fName"
  let limBranch :=
    match fnameE with
    | some fn => (findDescP fn "limLow").isSome
    | none => false
  if limBranch then
    let fp := childStr pr e "fName"
    let ap := childStr pr e "e"
    if !ap.isEmpty && !containsSub "\\lim".data ap then fp ++ ' ' :: ap else fp
  else
    let fname := childStr pr e "fName"
    let arg := childStr pr e "e"
    let fname := if !fname.isEmpty && !headIsBackslash fname
      then convFuncNames fname else fname
    if !fname.isEmpty && containsSub "lim".data (toLowerL fname) then
      if !arg.isEmpty then fname ++ ' ' :: arg else fname
    else if !fname.isEmpty && !arg.isEmpty then fname ++ '(' :: arg ++ [')']
    else if !fname.isEmpty then fname
    else arg

/-- `parse_limLow` (also aliased as `parse_limUpp`). -/
def limLowH (pr : Rec) (e : Elem) : List Char :=
  let base := childStr pr e "e"
  let lim := childStr pr e "lim"
  let base :=
    if base = "lim".data then "\\lim".data
    else if !headIsBackslash base then convFuncNames base
    else base
  base ++ "_\x7b".data ++ lim ++ ['}']

/-- The accent table of `parse_acc` (combining characters), with `hat`
as the default. -/
def accentMap (v : String) : String :=
  if v = "̂" then "hat"
  else if v = "̃" then "tilde"
  else if v = "̄" then "bar"
  else if v = "̇" then "dot"
  else if v = "̈" then "ddot"
  else if v = "⃗" then "vec"
  else "hat"

/-- `parse_acc`. -/
def accH (pr : Rec) (e : Elem) : List Char :=
  let base := childStr pr e "e"
  match findDC e "accPr" "chr" with
  | some ch =>
    '\\' :: (accentMap (ch.attrVal.getD "")).data ++ '{' :: base ++ ['}']
  | none => "\\hat\x7b".data ++ base ++ ['}']

/-- `parse_eqArr`. -/
def eqArrH (pr : Rec) (e : Elem) : List Char :=
  let parts := e.children.filterMap (fun c =>
    if endsWithStr c.tag "e" then
      let part := pr (some e.tag) c
      if !part.isEmpty && !(stripPy part).isEmpty then some (stripPy part) else none
    else none)
  let formatted := parts.map (fun part =>
    if containsSub [','] part then
      let value := stripPy (part.takeWhile (fun c => c != ','))
      let c0 := stripPy ((part.dropWhile (fun c => c != ',')).drop 1)
      let condition := match c0 with
        | '&' :: rest => stripPy rest
        | _ => c0
      if !condition.isEmpty then
        if containsSub "odd".data condition || containsSub "even".data condition then
          value ++ ", & \\text\x7b".data ++ condition ++ ['}']
        else
          value ++ ", & ".data ++ condition
      else value
    else part)
  List.intercalate " \\\\ ".data formatted

/-- One dispatch layer of `parse`: `getattr(self, f'parse_{tag}',
self.parse_default)` over the handlers that exist on the class. -/
def parseCore (pr : Rec) (p : Option String) (e : Elem) : List Char :=
  if e.tag = "oMath" then oMathH pr e
  else if e.tag = "oMathPara" then oMathParaH pr e
  else if e.tag = "r" then rH e
  else if e.tag = "f" then fH pr p e
  else if e.tag = "sSup" then sSupH pr e
  else if e.tag = "sSub" then sSubH pr e
  else if e.tag = "sSubSup" then sSubSupH pr e
  else if e.tag = "nary" then naryH pr e
  else if e.tag = "rad" then radH pr e
  else if e.tag = "d" then dH pr e
  else if e.tag = "matrix" then matrixH pr e "pmatrix"
  else if e.tag = "m" then matrixH pr e "matrix"
  else if e.tag = "func" then funcH pr e
  else if e.tag = "limLow" then limLowH pr e
  else if e.tag = "limUpp" then limLowH pr e
  else if e.tag = "acc" then accH pr e
  else if e.tag = "eqArr" then eqArrH pr e
  else defaultH pr e

/-- Fuelled recursive conversion. -/
def parseF : Nat → Rec
  | 0, _, _ => []
  | fuel + 1, p, e => parseCore (parseF fuel) p e

/-- `convert(node)`: the recursive conversion, run with enough fuel.
The first argument is the tag of the node's tree parent. -/
def parse (p : Option String) (e : Elem) : List Char :=
  parseF e.size p e

/-- `parse` on an optional node: the source's `parse` returns `''` for
`None`. -/
def parseOpt (p : Option String) : Option Elem → List Char
  | none => []
  | some e => parse p e

/-! ### Size lemmas: every recursion site of the converter is on a
strictly smaller element, so running the fuelled recursion with the tree
size is enough. -/

theorem size_eq (e : Elem) : e.size = 1 + sizeL e.children := by
  cases e; rfl

theorem size_pos (e : Elem) : 1 ≤ e.size := by
  cases e; simp only [Elem.size]; omega

theorem size_le_sizeL_of_mem {l : List Elem} {c : Elem} (h : c ∈ l) :
    Elem.size c ≤ sizeL l := by
  induction l with
  | nil => cases h
  | cons a as ih =>
    rcases List.mem_cons.mp h with rfl | h'
    · simp only [sizeL]; omega
    · have := ih h'
      simp only [sizeL]; omega

theorem size_lt_of_mem_children {e c : Elem} (h : c ∈ e.children) :
    Elem.size c < Elem.size e := by
  have h1 := size_le_sizeL_of_mem h
  have h2 := size_eq e
  omega

theorem findChild_mem {e : Elem} {t : String} {c : Elem}
    (h : findChild e t = some c) : c ∈ e.children :=
  List.mem_of_find?_eq_some h

theorem findChild_size {e : Elem} {t : String} {c : Elem}
    (h : findChild e t = some c) : Elem.size c < Elem.size e :=
  size_lt_of_mem_children (findChild_mem h)

theorem findInL_size (n : Nat) :
    ∀ (l : List Elem), sizeL l ≤ n → ∀ (t pt : String) (r : String × Elem),
      findInL t pt l = some r → Elem.size r.2 ≤ sizeL l := by
  induction n with
  | zero =>
    intro l hl t pt r h
    cases l with
    | nil => simp [findInL] at h
    | cons e es =>
      have := size_pos e
      simp only [sizeL] at hl
      omega
  | succ n ih =>
    intro l hl t pt r h
    cases l with
    | nil => simp [findInL] at h
    | cons e es =>
      rw [findInL] at h
      by_cases he : e.tag = t
      · rw [if_pos he] at h
        cases h
        simp only [sizeL]; omega
      · rw [if_neg he] at h
        cases hfe : findInE t e with
        | some r' =>
          rw [hfe] at h
          cases h
          have hsz : Elem.size r.2 ≤ sizeL e.children := by
            cases e with
            | mk tg v tx cs =>
              rw [findInE] at hfe
              have hcs : sizeL cs ≤ n := by
                have := size_pos (Elem.mk tg v tx cs)
                simp only [sizeL] at hl
                simp only [Elem.size] at this ⊢
                have h2 : Elem.size (Elem.mk tg v tx cs) = 1 + sizeL cs := rfl
                omega
              exact ih cs hcs t tg r hfe
          have := size_eq e
          simp only [sizeL]; omega
        | none =>
          rw [hfe] at h
          have hes : sizeL es ≤ n := by
            have := size_pos e
            simp only [sizeL] at hl
            omega
          have := ih es hes t pt r h
          simp only [sizeL]; omega

theorem findDescP_size {e : Elem} {t : String} {pt : String} {c : Elem}
    (h : findDescP e t = some (pt, c)) : Elem.size c < Elem.size e := by
  have h1 := findInL_size (sizeL e.children) e.children (le_refl _) t e.tag (pt, c) h
  have h2 := size_eq e
  simp at h1
  omega

theorem findDCL_size (n : Nat) :
    ∀ (l : List Elem), sizeL l ≤ n → ∀ (pa ch : String) (c : Elem),
      findDCL pa ch l = some c → Elem.size c ≤ sizeL l := by
  induction n with
  | zero =>
    intro l hl pa ch c h
    cases l with
    | nil => simp [findDCL] at h
    | cons e es =>
      have := size_pos e
      simp only [sizeL] at hl
      omega
  | succ n ih =>
    intro l hl pa ch c h
    cases l with
    | nil => simp [findDCL] at h
    | cons e es =>
      rw [findDCL] at h
      cases hfe : findDCE pa ch e with
      | some r' =>
        rw [hfe] at h
        cases h
        have hsz : Elem.size c ≤ sizeL e.children := by
          cases e with
          | mk tg v tx cs =>
            rw [findDCE] at hfe
            have hcs : sizeL cs ≤ n := by
              have h2 : Elem.size (Elem.mk tg v tx cs) = 1 + sizeL cs := rfl
              have := size_pos (Elem.mk tg v tx cs)
              simp only [sizeL] at hl
              omega
            cases hff : (if tg = pa then cs.find? (fun x => x.tag = ch) else none) with
            | some r'' =>
              rw [hff] at hfe
              cases hfe
              by_cases htg : tg = pa
              · rw [if_pos htg] at hff
                exact size_le_sizeL_of_mem (List.mem_of_find?_eq_some hff)
              · rw [if_neg htg] at hff
                cases hff
            | none =>
              rw [hff] at hfe
              exact ih cs hcs pa ch c hfe
        have := size_eq e
        simp only [sizeL]; omega
      | none =>
        rw [hfe] at h
        have hes : sizeL es ≤ n := by
          have := size_pos e
          simp only [sizeL] at hl
          omega
        have := ih es hes pa ch c h
        simp only [sizeL]; omega

theorem findDC_size {e : Elem} {pa ch : String} {c : Elem}
    (h : findDC e pa ch = some c) : Elem.size c < Elem.size e := by
  have h1 := findDCL_size (sizeL e.children) e.children (le_refl _) pa ch c h
  have h2 := size_eq e
  omega

/-! ### Congruence of the handlers in the recursive-call argument -/

theorem filterMap_congr_aux {α β : Type} {l : List α} {f g : α → Option β}
    (h : ∀ a ∈ l, f a = g a) : l.filterMap f = l.filterMap g := by
  induction l with
  | nil => rfl
  | cons a as ih =>
    simp only [List.filterMap_cons, h a (List.mem_cons_self a as)]
    cases g a <;> simp [ih (fun x hx => h x (List.mem_cons_of_mem a hx))]

theorem childStr_congr {pr1 pr2 : Rec} {e : Elem} {t : String}
    (h : ∀ p' c, Elem.size c < Elem.size e → pr1 p' c = pr2 p' c) :
    childStr pr1 e t = childStr pr2 e t := by
  unfold childStr
  cases hb : findChild e t with
  | some b => exact h _ b (findChild_size hb)
  | none => rfl

theorem descStr_congr {pr1 pr2 : Rec} {e : Elem} {t : String}
    (h : ∀ p' c, Elem.size c < Elem.size e → pr1 p' c = pr2 p' c) :
    descStr pr1 e t = descStr pr2 e t := by
  unfold descStr
  cases hb : findDescP e t with
  | some r =>
    obtain ⟨pt, x⟩ := r
    exact h _ x (findDescP_size hb)
  | none => rfl

theorem defaultH_congr {pr1 pr2 : Rec} {e : Elem}
    (h : ∀ p' c, Elem.size c < Elem.size e → pr1 p' c = pr2 p' c) :
    defaultH pr1 e = defaultH pr2 e := by
  unfold defaultH
  congr 1
  exact List.map_congr_left (fun c hc => h _ c (size_lt_of_mem_children hc))

theorem oMathParaH_congr {pr1 pr2 : Rec} {e : Elem}
    (h : ∀ p' c, Elem.size c < Elem.size e → pr1 p' c = pr2 p' c) :
    oMathParaH pr1 e = oMathParaH pr2 e := by
  unfold oMathParaH
  congr 1
  exact List.map_congr_left (fun c hc => h _ c (size_lt_of_mem_children hc))

theorem oMathH_congr {pr1 pr2 : Rec} {e : Elem}
    (h : ∀ p' c, Elem.size c < Elem.size e → pr1 p' c = pr2 p' c) :
    oMathH pr1 e = oMathH pr2 e := by
  unfold oMathH
  congr 2
  exact List.map_congr_left (fun c hc => h _ c (size_lt_of_mem_children hc))

theorem fH_congr {pr1 pr2 : Rec} {p : Option String} {e : Elem}
    (h : ∀ p' c, Elem.size c < Elem.size e → pr1 p' c = pr2 p' c) :
    fH pr1 p e = fH pr2 p e := by
  unfold fH
  rw [descStr_congr (t := "num") h, descStr_congr (t := "den") h]

theorem sSupH_congr {pr1 pr2 : Rec} {e : Elem}
    (h : ∀ p' c, Elem.size c < Elem.size e → pr1 p' c = pr2 p' c) :
    sSupH pr1 e = sSupH pr2 e := by
  unfold sSupH
  rw [childStr_congr (t := "e") h, childStr_congr (t := "sup") h]

theorem sSubH_congr {pr1 pr2 : Rec} {e : Elem}
    (h : ∀ p' c, Elem.size c < Elem.size e → pr1 p' c = pr2 p' c) :
    sSubH pr1 e = sSubH pr2 e := by
  unfold sSubH
  rw [childStr_congr (t := "e") h, childStr_congr (t := "sub") h]

theorem sSubSupH_congr {pr1 pr2 : Rec} {e : Elem}
    (h : ∀ p' c, Elem.size c < Elem.size e → pr1 p' c = pr2 p' c) :
    sSubSupH pr1 e = sSubSupH pr2 e := by
  unfold sSubSupH
  rw [childStr_congr (t := "e") h, childStr_congr (t := "sub") h,
    childStr_congr (t := "sup") h]

theorem naryH_congr {pr1 pr2 : Rec} {e : Elem}
    (h : ∀ p' c, Elem.size c < Elem.size e → pr1 p' c = pr2 p' c) :
    naryH pr1 e = naryH pr2 e := by
  unfold naryH
  rw [childStr_congr (t := "sub") h, childStr_congr (t := "sup") h,
    childStr_congr (t := "e") h]

theorem radH_congr {pr1 pr2 : Rec} {e : Elem}
    (h : ∀ p' c, Elem.size c < Elem.size e → pr1 p' c = pr2 p' c) :
    radH pr1 e = radH pr2 e := by
  unfold radH
  rw [childStr_congr (t := "e") h, childStr_congr (t := "deg") h]

theorem matrixH_congr {pr1 pr2 : Rec} {x : Elem} {mt : String}
    (h : ∀ p' c, Elem.size c < Elem.size x → pr1 p' c = pr2 p' c) :
    matrixH pr1 x mt = matrixH pr2 x mt := by
  unfold matrixH
  have hrows : x.children.filterMap (fun r =>
      if endsWithStr r.tag "mr" then
        let cols := r.children.filterMap (fun c =>
          if endsWithStr c.tag "e" then
            let s := pr1 (some r.tag) c
            if s.isEmpty then none else some s
          else none)
        if cols.isEmpty then none else some (List.intercalate " & ".data cols)
      else none) =
    x.children.filterMap (fun r =>
      if endsWithStr r.tag "mr" then
        let cols := r.children.filterMap (fun c =>
          if endsWithStr c.tag "e" then
            let s := pr2 (some r.tag) c
            if s.isEmpty then none else some s
          else none)
        if cols.isEmpty then none else some (List.intercalate " & ".data cols)
      else none) := by
    apply filterMap_congr_aux
    intro r hr
    have hcols : r.children.filterMap (fun c =>
        if endsWithStr c.tag "e" then
          let s := pr1 (some r.tag) c
          if s.isEmpty then none else some s
        else none) =
      r.children.filterMap (fun c =>
        if endsWithStr c.tag "e" then
          let s := pr2 (some r.tag) c
          if s.isEmpty then none else some s
        else none) := by
      apply filterMap_congr_aux
      intro c hc
      have hlt : Elem.size c < Elem.size x :=
        lt_trans (size_lt_of_mem_children hc) (size_lt_of_mem_children hr)
      rw [h _ c hlt]
    rw [hcols]
  rw [hrows]

theorem dH_congr {pr1 pr2 : Rec} {e : Elem}
    (h : ∀ p' c, Elem.size c < Elem.size e → pr1 p' c = pr2 p' c) :
    dH pr1 e = dH pr2 e := by
  unfold dH
  cases hk : e.children.filter (fun c => endsWithStr c.tag "e") with
  | nil => rfl
  | cons firstE rest =>
    have hfe : firstE ∈ e.children := by
      have hmem : firstE ∈ e.children.filter (fun c => endsWithStr c.tag "e") := by
        rw [hk]; exact List.mem_cons_self _ _
      exact List.mem_of_mem_filter hmem
    have hfsz : Elem.size firstE < Elem.size e := size_lt_of_mem_children hfe
    dsimp only
    cases hg : firstSpecial firstE with
    | some g =>
      have hgsz : Elem.size g < Elem.size e :=
        lt_trans (size_lt_of_mem_children (List.mem_of_find?_eq_some hg)) hfsz
      have hmc : ∀ p' c, Elem.size c < Elem.size g → pr1 p' c = pr2 p' c :=
        fun p' c hc => h p' c (lt_trans hc hgsz)
      simp only [matrixH_congr (x := g) hmc, h _ g hgsz]
    | none =>
      simp only [h _ firstE hfsz]

theorem funcH_congr {pr1 pr2 : Rec} {e : Elem}
    (h : ∀ p' c, Elem.size c < Elem.size e → pr1 p' c = pr2 p' c) :
    funcH pr1 e = funcH pr2 e := by
  unfold funcH
  rw [childStr_congr (t := "fName") h, childStr_congr (t := "e") h]

theorem limLowH_congr {pr1 pr2 : Rec} {e : Elem}
    (h : ∀ p' c, Elem.size c < Elem.size e → pr1 p' c = pr2 p' c) :
    limLowH pr1 e = limLowH pr2 e := by
  unfold limLowH
  rw [childStr_congr (t := "e") h, childStr_congr (t := "lim") h]

theorem accH_congr {pr1 pr2 : Rec} {e : Elem}
    (h : ∀ p' c, Elem.size c < Elem.size e → pr1 p' c = pr2 p' c) :
    accH pr1 e = accH pr2 e := by
  unfold accH
  rw [childStr_congr (t := "e") h]

theorem eqArrH_congr {pr1 pr2 : Rec} {e : Elem}
    (h : ∀ p' c, Elem.size c < Elem.size e → pr1 p' c = pr2 p' c) :
    eqArrH pr1 e = eqArrH pr2 e := by
  unfold eqArrH
  have hparts : e.children.filterMap (fun c =>
      if endsWithStr c.tag "e" then
        let part := pr1 (some e.tag) c
        if !part.isEmpty && !(stripPy part).isEmpty then some (stripPy part) else none
      else none) =
    e.children.filterMap (fun c =>
      if endsWithStr c.tag "e" then
        let part := pr2 (some e.tag) c
        if !part.isEmpty && !(stripPy part).isEmpty then some (stripPy part) else none
      else none) := by
    apply filterMap_congr_aux
    intro c hc
    rw [h _ c (size_lt_of_mem_children hc)]
  rw [hparts]

theorem parseCore_congr {pr1 pr2 : Rec} {p : Option String} {e : Elem}
    (h : ∀ p' c, Elem.size c < Elem.size e → pr1 p' c = pr2 p' c) :
    parseCore pr1 p e = parseCore pr2 p e := by
  unfold parseCore
  exact if_congr Iff.rfl (oMathH_congr h)
    (if_congr Iff.rfl (oMathParaH_congr h)
    (if_congr Iff.rfl rfl
    (if_congr Iff.rfl (fH_congr h)
    (if_congr Iff.rfl (sSupH_congr h)
    (if_congr Iff.rfl (sSubH_congr h)
    (if_congr Iff.rfl (sSubSupH_congr h)
    (if_congr Iff.rfl (naryH_congr h)
    (if_congr Iff.rfl (radH_congr h)
    (if_congr Iff.rfl (dH_congr h)
    (if_congr Iff.rfl (matrixH_congr h)
    (if_congr Iff.rfl (matrixH_congr h)
    (if_congr Iff.rfl (funcH_congr h)
    (if_congr Iff.rfl (limLowH_congr h)
    (if_congr Iff.rfl (limLowH_congr h)
    (if_congr Iff.rfl (accH_congr h)
    (if_congr Iff.rfl (eqArrH_congr h)
    (defaultH_congr h)))))))))))))))))

/-! ### Fuel monotonicity and the unfolding equation of `parse` -/

theorem parseF_mono (n : Nat) :
    ∀ (m : Nat) (p : Option String) (e : Elem),
      Elem.size e ≤ n → Elem.size e ≤ m → parseF n p e = parseF m p e := by
  induction n using Nat.strong_induction_on with
  | _ n ih =>
    intro m p e hn hm
    have h1 := size_pos e
    cases n with
    | zero => omega
    | succ n' =>
      cases m with
      | zero => omega
      | succ m' =>
        show parseCore (parseF n') p e = parseCore (parseF m') p e
        apply parseCore_congr
        intro p' c hc
        have hcn : Elem.size c ≤ n' := by omega
        have hcm : Elem.size c ≤ m' := by omega
        exact ih n' (by omega) m' p' c hcn hcm

/-- The defining equation of `parse`: one dispatch layer with `parse`
itself as the recursive conversion. -/
theorem parse_unfold (p : Option String) (e : Elem) :
    parse p e = parseCore parse p e := by
  unfold parse
  have h1 := size_pos e
  have h2 : Elem.size e = (Elem.size e - 1) + 1 := by omega
  rw [h2]
  show parseCore (parseF (Elem.size e - 1)) p e = parseCore parse p e
  apply parseCore_congr
  intro p' c hc
  show parseF (Elem.size e - 1) p' c = parseF (Elem.size c) p' c
  exact parseF_mono _ _ p' c (by omega) (le_refl _)

/-! ### Per-tag unfolding equations -/

theorem parse_eq_oMath {p : Option String} {e : Elem} (h : e.tag = "oMath") :
    parse p e = oMathH parse e := by
  rw [parse_unfold]; unfold parseCore; rw [h]
  rw [if_pos (rfl : ("oMath" : String) = "oMath")]

theorem parse_eq_r {p : Option String} {e : Elem} (h : e.tag = "r") :
    parse p e = rH e := by
  rw [parse_unfold]; unfold parseCore; rw [h]
  rw [if_neg (by decide : ¬("r" : String) = "oMath"),
    if_neg (by decide : ¬("r" : String) = "oMathPara"),
    if_pos (rfl : ("r" : String) = "r")]

theorem parse_eq_f {p : Option String} {e : Elem} (h : e.tag = "f") :
    parse p e = fH parse p e := by
  rw [parse_unfold]; unfold parseCore; rw [h]
  rw [if_neg (by decide : ¬("f" : String) = "oMath"),
    if_neg (by decide : ¬("f" : String) = "oMathPara"),
    if_neg (by decide : ¬("f" : String) = "r"),
    if_pos (rfl : ("f" : String) = "f")]

theorem parse_eq_nary {p : Option String} {e : Elem} (h : e.tag = "nary") :
    parse p e = naryH parse e := by
  rw [parse_unfold]; unfold parseCore; rw [h]
  rw [if_neg (by decide : ¬("nary" : String) = "oMath"),
    if_neg (by decide : ¬("nary" : String) = "oMathPara"),
    if_neg (by decide : ¬("nary" : String) = "r"),
    if_neg (by decide : ¬("nary" : String) = "f"),
    if_neg (by decide : ¬("nary" : String) = "sSup"),
    if_neg (by decide : ¬("nary" : String) = "sSub"),
    if_neg (by decide : ¬("nary" : String) = "sSubSup"),
    if_pos (rfl : ("nary" : String) = "nary")]

theorem parse_eq_rad {p : Option String} {e : Elem} (h : e.tag = "rad") :
    parse p e = radH parse e := by
  rw [parse_unfold]; unfold parseCore; rw [h]
  rw [if_neg (by decide : ¬("rad" : String) = "oMath"),
    if_neg (by decide : ¬("rad" : String) = "oMathPara"),
    if_neg (by decide : ¬("rad" : String) = "r"),
    if_neg (by decide : ¬("rad" : String) = "f"),
    if_neg (by decide : ¬("rad" : String) = "sSup"),
    if_neg (by decide : ¬("rad" : String) = "sSub"),
    if_neg (by decide : ¬("rad" : String) = "sSubSup"),
    if_neg (by decide : ¬("rad" : String) = "nary"),
    if_pos (rfl : ("rad" : String) = "rad")]

theorem parse_eq_d {p : Option String} {e : Elem} (h : e.tag = "d") :
    parse p e = dH parse e := by
  rw [parse_unfold]; unfold parseCore; rw [h]
  rw [if_neg (by decide : ¬("d" : String) = "oMath"),
    if_neg (by decide : ¬("d" : String) = "oMathPara"),
    if_neg (by decide : ¬("d" : String) = "r"),
    if_neg (by decide : ¬("d" : String) = "f"),
    if_neg (by decide : ¬("d" : String) = "sSup"),
    if_neg (by decide : ¬("d" : String) = "sSub"),
    if_neg (by decide : ¬("d" : String) = "sSubSup"),
    if_neg (by decide : ¬("d" : String) = "nary"),
    if_neg (by decide : ¬("d" : String) = "rad"),
    if_pos (rfl : ("d" : String) = "d")]

theorem parse_eq_m {p : Option String} {e : Elem} (h : e.tag = "m") :
    parse p e = matrixH parse e "matrix" := by
  rw [parse_unfold]; unfold parseCore; rw [h]
  rw [if_neg (by decide : ¬("m" : String) = "oMath"),
    if_neg (by decide : ¬("m" : String) = "oMathPara"),
    if_neg (by decide : ¬("m" : String) = "r"),
    if_neg (by decide : ¬("m" : String) = "f"),
    if_neg (by decide : ¬("m" : String) = "sSup"),
    if_neg (by decide : ¬("m" : String) = "sSub"),
    if_neg (by decide : ¬("m" : String) = "sSubSup"),
    if_neg (by decide : ¬("m" : String) = "nary"),
    if_neg (by decide : ¬("m" : String) = "rad"),
    if_neg (by decide : ¬("m" : String) = "d"),
    if_neg (by decide : ¬("m" : String) = "matrix"),
    if_pos (rfl : ("m" : String) = "m")]

theorem parse_eq_e {p : Option String} {e : Elem} (h : e.tag = "e") :
    parse p e = defaultH parse e := by
  rw [parse_unfold]; unfold parseCore; rw [h]
  rw [if_neg (by decide : ¬("e" : String) = "oMath"),
    if_neg (by decide : ¬("e" : String) = "oMathPara"),
    if_neg (by decide : ¬("e" : String) = "r"),
    if_neg (by decide : ¬("e" : String) = "f"),
    if_neg (by decide : ¬("e" : String) = "sSup"),
    if_neg (by decide : ¬("e" : String) = "sSub"),
    if_neg (by decide : ¬("e" : String) = "sSubSup"),
    if_neg (by decide : ¬("e" : String) = "nary"),
    if_neg (by decide : ¬("e" : String) = "rad"),
    if_neg (by decide : ¬("e" : String) = "d"),
    if_neg (by decide : ¬("e" : String) = "matrix"),
    if_neg (by decide : ¬("e" : String) = "m"),
    if_neg (by decide : ¬("e" : String) = "func"),
    if_neg (by decide : ¬("e" : String) = "limLow"),
    if_neg (by decide : ¬("e" : String) = "limUpp"),
    if_neg (by decide : ¬("e" : String) = "acc"),
    if_neg (by decide : ¬("e" : String) = "eqArr")]

theorem parse_eq_num {p : Option String} {e : Elem} (h : e.tag = "num") :
    parse p e = defaultH parse e := by
  rw [parse_unfold]; unfold parseCore; rw [h]
  rw [if_neg (by decide : ¬("num" : String) = "oMath"),
    if_neg (by decide : ¬("num" : String) = "oMathPara"),
    if_neg (by decide : ¬("num" : String) = "r"),
    if_neg (by decide : ¬("num" : String) = "f"),
    if_neg (by decide : ¬("num" : String) = "sSup"),
    if_neg (by decide : ¬("num" : String) = "sSub"),
    if_neg (by decide : ¬("num" : String) = "sSubSup"),
    if_neg (by decide : ¬("num" : String) = "nary"),
    if_neg (by decide : ¬("num" : String) = "rad"),
    if_neg (by decide : ¬("num" : String) = "d"),
    if_neg (by decide : ¬("num" : String) = "matrix"),
    if_neg (by decide : ¬("num" : String) = "m"),
    if_neg (by decide : ¬("num" : String) = "func"),
    if_neg (by decide : ¬("num" : String) = "limLow"),
    if_neg (by decide : ¬("num" : String) = "limUpp"),
    if_neg (by decide : ¬("num" : String) = "acc"),
    if_neg (by decide : ¬("num" : String) = "eqArr")]

theorem parse_eq_den {p : Option String} {e : Elem} (h : e.tag = "den") :
    parse p e = defaultH parse e := by
  rw [parse_unfold]; unfold parseCore; rw [h]
  rw [if_neg (by decide : ¬("den" : String) = "oMath"),
    if_neg (by decide : ¬("den" : String) = "oMathPara"),
    if_neg (by decide : ¬("den" : String) = "r"),
    if_neg (by decide : ¬("den" : String) = "f"),
    if_neg (by decide : ¬("den" : String) = "sSup"),
    if_neg (by decide : ¬("den" : String) = "sSub"),
    if_neg (by decide : ¬("den" : String) = "sSubSup"),
    if_neg (by decide : ¬("den" : String) = "nary"),
    if_neg (by decide : ¬("den" : String) = "rad"),
    if_neg (by decide : ¬("den" : String) = "d"),
    if_neg (by decide : ¬("den" : String) = "matrix"),
    if_neg (by decide : ¬("den" : String) = "m"),
    if_neg (by decide : ¬("den" : String) = "func"),
    if_neg (by decide : ¬("den" : String) = "limLow"),
    if_neg (by decide : ¬("den" : String) = "limUpp"),
    if_neg (by decide : ¬("den" : String) = "acc"),
    if_neg (by decide : ¬("den" : String) = "eqArr")]

/-- The tags for which the class has a `parse_<tag>` handler attribute
(the seventeen distinct handlers, the alias methods, and `parse_default`
itself, which `getattr` finds for the tag `default`). -/
def handledTags : List String :=
  ["oMath", "oMathPara", "r", "f", "sSup", "sSub", "sSubSup", "nary", "rad", "d",
   "matrix", "m", "func", "limLow", "limUpp", "acc", "eqArr",
   "e", "num", "den", "sub", "sup", "lim", "mr", "default"]

theorem parse_eq_unhandled {p : Option String} {e : Elem}
    (h : e.tag ∉ handledTags) : parse p e = defaultH parse e := by
  have hne : ∀ t : String, t ∈ handledTags → e.tag ≠ t :=
    fun t ht hq => h (hq ▸ ht)
  rw [parse_unfold]
  unfold parseCore
  rw [if_neg (hne "oMath" (by simp [handledTags])),
    if_neg (hne "oMathPara" (by simp [handledTags])),
    if_neg (hne "r" (by simp [handledTags])),
    if_neg (hne "f" (by simp [handledTags])),
    if_neg (hne "sSup" (by simp [handledTags])),
    if_neg (hne "sSub" (by simp [handledTags])),
    if_neg (hne "sSubSup" (by simp [handledTags])),
    if_neg (hne "nary" (by simp [handledTags])),
    if_neg (hne "rad" (by simp [handledTags])),
    if_neg (hne "d" (by simp [handledTags])),
    if_neg (hne "matrix" (by simp [handledTags])),
    if_neg (hne "m" (by simp [handledTags])),
    if_neg (hne "func" (by simp [handledTags])),
    if_neg (hne "limLow" (by simp [handledTags])),
    if_neg (hne "limUpp" (by simp [handledTags])),
    if_neg (hne "acc" (by simp [handledTags])),
    if_neg (hne "eqArr" (by simp [handledTags]))]

theorem joinNonEmpty_eq_flatten (xs : List (List Char)) :
    joinNonEmpty xs = xs.flatten := by
  unfold joinNonEmpty
  induction xs with
  | nil => rfl
  | cons a as ih =>
    by_cases ha : a.isEmpty
    · have : a = [] := List.isEmpty_iff.mp ha
      subst this
      simpa using ih
    · simp [List.filter_cons, ha, ih]

/-! ### Claim theorems -/

/-- C9: `parse` applied to an absent node (the `None` case) returns the
empty string rather than raising, and a delimiter-group node with no
operand children (no child whose tag ends in `e`) converts to the empty
string. -/
theorem C9_thm :
    (∀ p : Option String, parseOpt p none = []) ∧
    (∀ (p : Option String) (e : Elem), e.tag = "d" →
      e.children.filter (fun c => endsWithStr c.tag "e") = [] → parse p e = []) := by
  constructor
  · intro p; rfl
  · intro p e ht hf
    rw [parse_eq_d ht]
    unfold dH
    rw [hf]

theorem C9_witness :
    parseOpt (some "oMath") none = [] ∧
    parse (some "oMath") (Elem.mk "d" none [] [Elem.mk "dPr" none [] []]) = [] :=
  ⟨C9_thm.1 (some "oMath"), C9_thm.2 (some "oMath") _ rfl (by
    have h : endsWithStr (Elem.mk "dPr" none [] ([] : List Elem)).tag "e" = false := by decide
    simp [Elem.children, List.filter_cons, h])⟩

theorem cells_eq_aux (f : Elem → List Char) (l : List Elem) :
    l.filterMap (fun c =>
        if endsWithStr c.tag "e" then
          let s := f c
          if s.isEmpty then none else some s
        else none) =
      ((l.filter (fun c => endsWithStr c.tag "e")).map f).filter (fun s => !s.isEmpty) := by
  induction l with
  | nil => rfl
  | cons c cs ih =>
    simp only [List.isEmpty_iff] at ih ⊢
    by_cases he : endsWithStr c.tag "e"
    · by_cases hs : f c = []
      · simp [List.filterMap_cons, List.filter_cons, he, hs, ih]
      · simp [List.filterMap_cons, List.filter_cons, he, hs, ih]
    · simp [List.filterMap_cons, List.filter_cons, he, ih]

theorem rows_eq_aux (g : Elem → List (List Char)) (l : List Elem) :
    l.filterMap (fun r =>
        if endsWithStr r.tag "mr" then
          let cols := g r
          if cols.isEmpty then none else some (List.intercalate " & ".data cols)
        else none) =
      (((l.filter (fun r => endsWithStr r.tag "mr")).map g).filter
        (fun row => !row.isEmpty)).map (List.intercalate " & ".data) := by
  induction l with
  | nil => rfl
  | cons r rs ih =>
    simp only [List.isEmpty_iff] at ih ⊢
    by_cases hm : endsWithStr r.tag "mr"
    · by_cases hc : g r = []
      · simp [List.filterMap_cons, List.filter_cons, hm, hc, ih]
      · simp [List.filterMap_cons, List.filter_cons, hm, hc, ih]
    · simp [List.filterMap_cons, List.filter_cons, hm, ih]

/-- C10: in matrix conversion, a cell whose conversion is empty is
omitted from its row, a row all of whose cells convert to empty is
omitted entirely, and a matrix with no surviving rows converts to the
empty string with no environment wrapper: the converted matrix equals
the rendering of the cell matrix after filtering out empty cells and
then empty rows (so the emitted column count can differ from the source
column count). -/
theorem C10_thm (e : Elem) (mt : String) :
    matrixH parse e mt =
      (let rows := ((e.children.filter (fun r => endsWithStr r.tag "mr")).map
          (fun r => ((r.children.filter (fun c => endsWithStr c.tag "e")).map
            (fun c => parse (some r.tag) c)).filter (fun s => !s.isEmpty))).filter
          (fun row => !row.isEmpty)
       if rows.isEmpty then []
       else "\\begin\x7b".data ++ mt.data ++ "\x7d ".data ++
         List.intercalate " \\\\ ".data (rows.map (List.intercalate " & ".data)) ++
         " \\end\x7b".data ++ mt.data ++ ['}']) := by
  unfold matrixH
  have hcells : e.children.filterMap (fun r =>
      if endsWithStr r.tag "mr" then
        let cols := r.children.filterMap (fun c =>
          if endsWithStr c.tag "e" then
            let s := parse (some r.tag) c
            if s.isEmpty then none else some s
          else none)
        if cols.isEmpty then none else some (List.intercalate " & ".data cols)
      else none) =
    e.children.filterMap (fun r =>
      if endsWithStr r.tag "mr" then
        let cols := ((r.children.filter (fun c => endsWithStr c.tag "e")).map
          (fun c => parse (some r.tag) c)).filter (fun s => !s.isEmpty)
        if cols.isEmpty then none else some (List.intercalate " & ".data cols)
      else none) := by
    apply filterMap_congr_aux
    intro r _
    rw [cells_eq_aux (fun c => parse (some r.tag) c) r.children]
  rw [hcells,
    rows_eq_aux (fun r => ((r.children.filter (fun c => endsWithStr c.tag "e")).map
      (fun c => parse (some r.tag) c)).filter (fun s => !s.isEmpty)) e.children]
  cases hrows : ((e.children.filter (fun r => endsWithStr r.tag "mr")).map
      (fun r => ((r.children.filter (fun c => endsWithStr c.tag "e")).map
        (fun c => parse (some r.tag) c)).filter (fun s => !s.isEmpty))).filter
      (fun row => !row.isEmpty) with
  | nil => rfl
  | cons a as => rfl

/-- C4: conversion is total by construction; a node of unrecognized kind
(no `parse_<tag>` handler) yields exactly the concatenation of its
children's converted outputs, and a fraction node missing its expected
`num` and `den` sub-nodes contributes empty strings, yielding a fraction
with empty brace groups. -/
theorem C4_thm :
    (∀ (p : Option String) (e : Elem), e.tag ∉ handledTags →
      parse p e = (e.children.map (parse (some e.tag))).flatten) ∧
    (∀ (p : Option String) (e : Elem), e.tag = "f" →
      findDescP e "num" = none → findDescP e "den" = none →
      parse p e = "\\frac\x7b\x7d\x7b\x7d".data) := by
  constructor
  · intro p e h
    rw [parse_eq_unhandled h]
    unfold defaultH
    exact joinNonEmpty_eq_flatten _
  · intro p e ht hn hd
    rw [parse_eq_f ht]
    unfold fH descStr
    rw [hn, hd]
    rfl

/-- A node of unrecognized kind with two text runs, for the C4 witness. -/
def blobW : Elem :=
  Elem.mk "blob" none [] [Elem.mk "r" none [] [Elem.mk "t" none "a".data []],
    Elem.mk "r" none [] [Elem.mk "t" none "b".data []]]

theorem C4_witness :
    parse none blobW = "ab".data ∧
    parse none (Elem.mk "f" none [] []) = "\\frac\x7b\x7d\x7b\x7d".data := by
  constructor
  · rw [C4_thm.1 none blobW (by decide)]
    decide
  · exact C4_thm.2 none (Elem.mk "f" none [] []) rfl rfl rfl

/-- C3 counterexample: an n-ary node with no operator-character attribute
emits the integral command, not the summation command the claim states. -/
theorem C3_cex :
    parse (some "oMath") (Elem.mk "nary" none [] []) = "\\int".data ∧
    "\\int".data ≠ "\\sum".data := by
  constructor
  · decide
  · decide

/-- C3 amended: for every n-ary operator node carrying no explicit
operator-character attribute, the emitted operator is the integral
command (the code's default), followed by the lower-limit subscript and
upper-limit superscript only when those named children are present, then
the converted operand separated by a single space. -/
theorem C3_thm (p : Option String) (e : Elem) (ht : e.tag = "nary")
    (hchr : (findDC e "naryPr" "chr").bind Elem.attrVal = none) :
    parse p e = "\\int".data ++
      (if (findChild e "sub").isSome then "_\x7b".data ++ childStr parse e "sub" ++ ['}'] else []) ++
      (if (findChild e "sup").isSome then "^\x7b".data ++ childStr parse e "sup" ++ ['}'] else []) ++
      (if (findChild e "e").isSome then ' ' :: childStr parse e "e" else []) := by
  rw [parse_eq_nary ht]
  unfold naryH
  have hop : (match findDC e "naryPr" "chr" with
      | some c => c.attrVal.getD "∫"
      | none => "∫") = "∫" := by
    cases hc : findDC e "naryPr" "chr" with
    | some c =>
      rw [hc] at hchr
      have hv : c.attrVal = none := hchr
      show c.attrVal.getD "∫" = "∫"
      rw [hv]
      rfl
    | none => rfl
  rw [hop]
  dsimp only
  rw [show smartSym ("∫").data = "\\int".data from by decide]

/-- An n-ary node with no operator character but lower limit, upper
limit, and operand, for the C3 witness. -/
def naryW : Elem :=
  Elem.mk "nary" none []
    [Elem.mk "sub" none [] [Elem.mk "r" none [] [Elem.mk "t" none "1".data []]],
     Elem.mk "sup" none [] [Elem.mk "r" none [] [Elem.mk "t" none "2".data []]],
     Elem.mk "e" none [] [Elem.mk "r" none [] [Elem.mk "t" none "x".data []]]]

theorem C3_witness : parse none naryW = "\\int_\x7b1\x7d^\x7b2\x7d x".data := by
  rw [C3_thm none naryW rfl rfl]
  decide

/-- C5 counterexample: a radical with a present, non-hidden degree child
whose conversion is empty yields the plain root form, not the indexed
root form the claim states for every present non-hidden degree. -/
theorem C5_cex :
    parse (some "oMath") (Elem.mk "rad" none []
      [Elem.mk "deg" none [] [],
       Elem.mk "e" none [] [Elem.mk "r" none [] [Elem.mk "t" none "x".data []]]]) =
      "\\sqrt\x7bx\x7d".data ∧
    "\\sqrt\x7bx\x7d".data ≠ "\\sqrt[]\x7bx\x7d".data := by
  constructor
  · decide
  · decide

/-- C5 amended: for a radical node, a hidden degree (descendant
degree-hidden flag with value 1) yields the plain root; a non-hidden
degree whose conversion is nonempty after stripping whitespace yields
the indexed root with that conversion as index; a non-hidden degree that
is absent or converts to whitespace only yields the plain root. -/
theorem C5_thm (p : Option String) (e : Elem) (ht : e.tag = "rad") :
    (degHidden e = true →
      parse p e = "\\sqrt\x7b".data ++ childStr parse e "e" ++ ['}']) ∧
    (degHidden e = false → stripPy (childStr parse e "deg") ≠ [] →
      parse p e = "\\sqrt[".data ++ childStr parse e "deg" ++ "]\x7b".data ++
        childStr parse e "e" ++ ['}']) ∧
    (degHidden e = false → stripPy (childStr parse e "deg") = [] →
      parse p e = "\\sqrt\x7b".data ++ childStr parse e "e" ++ ['}']) := by
  rw [parse_eq_rad ht]
  unfold radH
  refine ⟨fun hh => ?_, fun hh hs => ?_, fun hh hs => ?_⟩
  · rw [hh]
    rfl
  · rw [hh]
    have hd1 : (childStr parse e "deg").isEmpty = false := by
      cases hcd : childStr parse e "deg" with
      | nil =>
        rw [hcd] at hs
        exact absurd rfl hs
      | cons a l => rfl
    have hd2 : (stripPy (childStr parse e "deg")).isEmpty = false := by
      cases hsd : stripPy (childStr parse e "deg") with
      | nil => exact absurd hsd hs
      | cons a l => rfl
    simp only [hd1, hd2]
    rfl
  · rw [hh]
    have hd2 : (stripPy (childStr parse e "deg")).isEmpty = true := by
      rw [hs]
      rfl
    simp only [hd2, Bool.not_true, Bool.and_false]
    rfl

/-- A radical with visible degree 3 over x, for the C5 witness. -/
def radW : Elem :=
  Elem.mk "rad" none []
    [Elem.mk "deg" none [] [Elem.mk "r" none [] [Elem.mk "t" none "3".data []]],
     Elem.mk "e" none [] [Elem.mk "r" none [] [Elem.mk "t" none "x".data []]]]

theorem C5_witness :
    degHidden radW = false ∧ parse none radW = "\\sqrt[3]\x7bx\x7d".data := by
  refine ⟨rfl, ?_⟩
  rw [(C5_thm none radW rfl).2.1 rfl (by decide)]
  decide

/-- C6: for a delimiter-group node whose first operand's first special
grandchild is a matrix node, the matrix environment is selected strictly
by the delimiter pair: square brackets give bmatrix, curly braces give
Bmatrix, vertical bars give vmatrix, and parentheses or absent (default)
delimiters give pmatrix. -/
theorem C6_thm (p : Option String) (e firstE g : Elem) (rest : List Elem)
    (ht : e.tag = "d")
    (hflt : e.children.filter (fun c => endsWithStr c.tag "e") = firstE :: rest)
    (hg : firstSpecial firstE = some g) (hgm : g.tag = "m") :
    (openDelim e = "[" ∧ closeDelim e = "]" →
      parse p e = matrixH parse g "bmatrix") ∧
    (openDelim e = "\x7b" ∧ closeDelim e = "\x7d" →
      parse p e = matrixH parse g "Bmatrix") ∧
    (openDelim e = "|" ∧ closeDelim e = "|" →
      parse p e = matrixH parse g "vmatrix") ∧
    (openDelim e = "(" ∧ closeDelim e = ")" →
      parse p e = matrixH parse g "pmatrix") ∧
    (findDescP e "begChr" = none ∧ findDescP e "endChr" = none →
      parse p e = matrixH parse g "pmatrix") := by
  have hmain : parse p e = matrixH parse g
      (if openDelim e = "[" then "bmatrix"
       else if openDelim e = "\x7b" then "Bmatrix"
       else if openDelim e = "|" then "vmatrix"
       else "pmatrix") := by
    rw [parse_eq_d ht]
    unfold dH
    rw [hflt]
    dsimp only
    rw [hg]
    dsimp only
    rw [hgm]
    rfl
  refine ⟨fun hoc => ?_, fun hoc => ?_, fun hoc => ?_, fun hoc => ?_, fun hbe => ?_⟩
  · rw [hmain, if_pos hoc.1]
  · rw [hmain, if_neg (by rw [hoc.1]; decide), if_pos hoc.1]
  · rw [hmain, if_neg (by rw [hoc.1]; decide), if_neg (by rw [hoc.1]; decide),
      if_pos hoc.1]
  · rw [hmain, if_neg (by rw [hoc.1]; decide), if_neg (by rw [hoc.1]; decide),
      if_neg (by rw [hoc.1]; decide)]
  · have ho : openDelim e = "(" := by unfold openDelim; rw [hbe.1]
    rw [hmain, if_neg (by rw [ho]; decide), if_neg (by rw [ho]; decide),
      if_neg (by rw [ho]; decide)]

/-- A matrix node with one row of two cells, for the C6 witness. -/
def mW : Elem :=
  Elem.mk "m" none []
    [Elem.mk "mr" none []
      [Elem.mk "e" none [] [Elem.mk "r" none [] [Elem.mk "t" none "a".data []]],
       Elem.mk "e" none [] [Elem.mk "r" none [] [Elem.mk "t" none "b".data []]]]]

/-- The first operand child of the C6 witness delimiter group. -/
def eMW : Elem := Elem.mk "e" none [] [mW]

/-- A delimiter group with square-bracket delimiters wrapping `mW`. -/
def dBracketW : Elem :=
  Elem.mk "d" none []
    [Elem.mk "dPr" none []
      [Elem.mk "begChr" (some "[") [] [], Elem.mk "endChr" (some "]") [] []],
     eMW]

theorem C6_witness :
    parse (some "oMath") dBracketW = "\\begin\x7bbmatrix\x7d a & b \\end\x7bbmatrix\x7d".data := by
  rw [(C6_thm (some "oMath") dBracketW eMW mW [] rfl rfl rfl rfl).1 ⟨rfl, rfl⟩]
  decide

/-- C1 counterexample: a fraction with single-letter operands a and b
whose tree parent is a node tagged grid (handled by the generic child
concatenation) renders as a binomial, because the code tests only
whether the parent tag ends in the letter d; the claim, which demands a
delimiter-group parent, predicts the ordinary fraction form here. -/
theorem C1_cex :
    parse (some "oMath")
      (Elem.mk "grid" none []
        [Elem.mk "f" none []
          [Elem.mk "num" none [] [Elem.mk "r" none [] [Elem.mk "t" none "a".data []]],
           Elem.mk "den" none [] [Elem.mk "r" none [] [Elem.mk "t" none "b".data []]]]]) =
      "\\binom\x7ba\x7d\x7bb\x7d".data ∧
    parse (some "grid")
      (Elem.mk "f" none []
        [Elem.mk "num" none [] [Elem.mk "r" none [] [Elem.mk "t" none "a".data []]],
         Elem.mk "den" none [] [Elem.mk "r" none [] [Elem.mk "t" none "b".data []]]]) =
      "\\binom\x7ba\x7d\x7bb\x7d".data ∧
    "\\binom\x7ba\x7d\x7bb\x7d".data ≠ "\\frac\x7ba\x7d\x7bb\x7d".data := by
  refine ⟨by decide, by decide, by decide⟩

/-- C1 amended: a fraction node renders as a binomial exactly when the
stripped conversions of its first `num` and `den` descendants are single
alphabetic characters and either they are literally n and k, or the
node's tree parent exists and its tag ends in the letter d (delimiter
groups, but also radicals and any other tag ending in d); in every other
case, including the small-numeral special case, it renders as an
ordinary fraction with both operands in brace groups. -/
theorem C1_thm (p : Option String) (e : Elem) (ht : e.tag = "f") :
    parse p e =
      (let num := stripPy (descStr parse e "num")
       let den := stripPy (descStr parse e "den")
       if num.length = 1 ∧ den.length = 1 ∧ pyStrIsAlpha num ∧ pyStrIsAlpha den ∧
          ((num = ['n'] ∧ den = ['k']) ∨ parentEndsD p) then binomStr num den
       else fracStr num den) := by
  rw [parse_eq_f ht]
  unfold fH
  dsimp only
  by_cases hsp : ((stripPy (descStr parse e "num") = ['1'] ||
        stripPy (descStr parse e "num") = ['2'] ||
        stripPy (descStr parse e "num") = ['3']) &&
      (stripPy (descStr parse e "den") = ['2'] ||
        stripPy (descStr parse e "den") = ['3'] ||
        stripPy (descStr parse e "den") = ['4'])) = true
  · rw [if_pos hsp]
    have halpha : pyStrIsAlpha (stripPy (descStr parse e "num")) = false := by
      have h1 := hsp
      simp only [Bool.and_eq_true, Bool.or_eq_true, decide_eq_true_eq] at h1
      obtain ⟨hnum, -⟩ := h1
      rcases hnum with (h | h) | h <;> rw [h] <;> decide
    rw [if_neg]
    intro hcond
    rw [halpha] at hcond
    exact Bool.false_ne_true hcond.2.2.1
  · rw [if_neg hsp]
    apply if_congr _ rfl rfl
    simp only [Bool.and_eq_true, Bool.or_eq_true, decide_eq_true_eq]
    constructor
    · rintro ⟨⟨⟨⟨h1, h2⟩, h3⟩, h4⟩, h5⟩
      exact ⟨h1, h2, h3, h4, by
        rcases h5 with ⟨hn, hk⟩ | hp
        · exact Or.inl ⟨hn, hk⟩
        · exact Or.inr hp⟩
    · rintro ⟨h1, h2, h3, h4, h5⟩
      refine ⟨⟨⟨⟨h1, h2⟩, h3⟩, h4⟩, ?_⟩
      rcases h5 with ⟨hn, hk⟩ | hp
      · exact Or.inl ⟨hn, hk⟩
      · exact Or.inr hp

theorem C1_witness :
    parse (some "e")
      (Elem.mk "f" none []
        [Elem.mk "num" none [] [Elem.mk "r" none [] [Elem.mk "t" none "n".data []]],
         Elem.mk "den" none [] [Elem.mk "r" none [] [Elem.mk "t" none "k".data []]]]) =
      "\\binom\x7bn\x7d\x7bk\x7d".data := by
  rw [C1_thm (some "e")
    (Elem.mk "f" none []
      [Elem.mk "num" none [] [Elem.mk "r" none [] [Elem.mk "t" none "n".data []]],
       Elem.mk "den" none [] [Elem.mk "r" none [] [Elem.mk "t" none "k".data []]]]) rfl]
  decide

/-- C8: a root expression consisting of a delimiter group with default
(parenthesis) delimiters wrapping a fraction whose numerator converts to
n and denominator converts to k converts end-to-end (recursive
conversion, then the root normalization pass) to exactly the binomial
form, with no surrounding scalable parentheses remaining. -/
theorem C8_thm (p : Option String) (root d e1 f : Elem)
    (hr : root.tag = "oMath") (hrc : root.children = [d])
    (hd : d.tag = "d")
    (hbeg : findDescP d "begChr" = none) (hend : findDescP d "endChr" = none)
    (hdc : d.children = [e1]) (he1 : e1.tag = "e") (he1c : e1.children = [f])
    (hf : f.tag = "f")
    (hnum : descStr parse f "num" = "n".data)
    (hden : descStr parse f "den" = "k".data) :
    parse p root = "\\binom\x7bn\x7d\x7bk\x7d".data := by
  have hfp : parse (some "e") f = "\\binom\x7bn\x7d\x7bk\x7d".data := by
    rw [parse_eq_f hf]
    unfold fH
    rw [hnum, hden]
    rfl
  have he1p : parse (some "d") e1 = "\\binom\x7bn\x7d\x7bk\x7d".data := by
    rw [parse_eq_e he1]
    unfold defaultH
    rw [he1c, he1]
    simp only [List.map_cons, List.map_nil, hfp]
    rfl
  have hpred : (fun g => endsWithStr g.tag "m" || endsWithStr g.tag "eqArr") f = false := by
    show (endsWithStr f.tag "m" || endsWithStr f.tag "eqArr") = false
    rw [hf]
    rfl
  have hfs : firstSpecial e1 = none := by
    unfold firstSpecial
    rw [he1c]
    simp only [List.find?_cons, hpred]
    rfl
  have hek : d.children.filter (fun c => endsWithStr c.tag "e") = [e1] := by
    rw [hdc]
    simp only [List.filter_cons, List.filter_nil, he1]
    rfl
  have hopen : openDelim d = "(" := by
    unfold openDelim
    rw [hbeg]
  have hclose : closeDelim d = ")" := by
    unfold closeDelim
    rw [hend]
  have hdp : parse (some "oMath") d = "\\left(\\binom\x7bn\x7d\x7bk\x7d\\right)".data := by
    rw [parse_eq_d hd]
    unfold dH
    rw [hek]
    dsimp only
    rw [hfs]
    dsimp only
    rw [hopen, hclose, hd, he1p]
    rfl
  rw [parse_eq_oMath hr]
  unfold oMathH
  rw [hrc, hr]
  simp only [List.map_cons, List.map_nil, hdp]
  decide

/-- The numerator run of the C8 witness. -/
def fW : Elem :=
  Elem.mk "f" none []
    [Elem.mk "num" none [] [Elem.mk "r" none [] [Elem.mk "t" none "n".data []]],
     Elem.mk "den" none [] [Elem.mk "r" none [] [Elem.mk "t" none "k".data []]]]

def e1W : Elem := Elem.mk "e" none [] [fW]

def dParenW : Elem := Elem.mk "d" none [] [e1W]

def oMathW : Elem := Elem.mk "oMath" none [] [dParenW]

theorem C8_witness : parse none oMathW = "\\binom\x7bn\x7d\x7bk\x7d".data := by
  rw [C8_thm none oMathW dParenW e1W fW rfl rfl rfl rfl rfl rfl rfl rfl rfl
    (by decide) (by decide)]

/-! ### C2: the normalization pass -/

theorem startsWithL_mem {pat cs : List Char} (h : startsWithL pat cs = true) :
    ∀ c ∈ pat, c ∈ cs := by
  induction pat generalizing cs with
  | nil => intro c hc; cases hc
  | cons p ps ih =>
    cases cs with
    | nil => cases h
    | cons c' cs' =>
      rw [startsWithL, Bool.and_eq_true, beq_iff_eq] at h
      intro c hc
      rcases List.mem_cons.mp hc with rfl | hc'
      · rw [h.1]; exact List.mem_cons_self _ _
      · exact List.mem_cons_of_mem _ (ih h.2 c hc')

theorem startsWithL_eq_false {pat cs : List Char} {m : Char}
    (hm : m ∈ pat) (h : ∀ c ∈ cs, c ≠ m) : startsWithL pat cs = false := by
  cases hq : startsWithL pat cs with
  | false => rfl
  | true => exact absurd rfl (h m (startsWithL_mem hq m hm))

theorem containsSub_mem {pat cs : List Char} (h : containsSub pat cs = true) :
    ∀ c ∈ pat, c ∈ cs := by
  induction cs with
  | nil =>
    rw [containsSub] at h
    intro c hc
    cases pat with
    | nil => cases hc
    | cons p ps => cases h
  | cons a as ih =>
    rw [containsSub, Bool.or_eq_true] at h
    intro c hc
    rcases h with h | h
    · exact startsWithL_mem h c hc
    · exact List.mem_cons_of_mem _ (ih h c hc)

theorem containsSub_eq_false {pat cs : List Char} {m : Char}
    (hm : m ∈ pat) (h : ∀ c ∈ cs, c ≠ m) : containsSub pat cs = false := by
  cases hq : containsSub pat cs with
  | false => rfl
  | true => exact absurd rfl (h m (containsSub_mem hq m hm))

theorem hasMarker_eq_false {cs : List Char} (h : ∀ c ∈ cs, c ≠ '\\') :
    hasMarker cs = false := by
  unfold hasMarker
  rw [containsSub_eq_false (m := '\\') (by decide) h,
    containsSub_eq_false (m := '\\') (by decide) h,
    containsSub_eq_false (m := '\\') (by decide) h,
    containsSub_eq_false (m := '\\') (by decide) h]
  rfl

/-- Generic identity for a plain scanner whose matcher never fires on
strings all of whose characters satisfy `P`. -/
theorem scanStep_id {tm : List Char → Option (List Char × List Char)} {P : Char → Prop}
    (htm : ∀ x : List Char, (∀ c ∈ x, P c) → tm x = none) :
    ∀ (fuel : Nat) (cs : List Char), (∀ c ∈ cs, P c) → scanStep tm fuel cs = cs := by
  intro fuel
  induction fuel with
  | zero => intro cs _; rfl
  | succ n ih =>
    intro cs h
    cases cs with
    | nil => rfl
    | cons c rest =>
      rw [scanStep, htm _ h]
      show c :: scanStep tm n rest = c :: rest
      rw [ih rest (fun c hc => h c (List.mem_cons_of_mem _ hc))]

theorem runScan_id {tm : List Char → Option (List Char × List Char)} {P : Char → Prop}
    (htm : ∀ x : List Char, (∀ c ∈ x, P c) → tm x = none)
    {cs : List Char} (h : ∀ c ∈ cs, P c) : runScan tm cs = cs :=
  scanStep_id htm cs.length cs h

/-- Generic identity for a scanner with lookbehind state. -/
theorem scanPrev_id
    {tm : List Char → List Char → Option (List Char × List Char × List Char)}
    {P : Char → Prop}
    (htm : ∀ (prev x : List Char), (∀ c ∈ x, P c) → tm prev x = none) :
    ∀ (fuel : Nat) (prev cs : List Char), (∀ c ∈ cs, P c) →
      scanPrev tm fuel prev cs = cs := by
  intro fuel
  induction fuel with
  | zero => intro prev cs _; rfl
  | succ n ih =>
    intro prev cs h
    cases cs with
    | nil => rfl
    | cons c rest =>
      rw [scanPrev, htm _ _ h]
      show c :: scanPrev tm n (c :: prev) rest = c :: rest
      rw [ih (c :: prev) rest (fun c hc => h c (List.mem_cons_of_mem _ hc))]

theorem runScanPrev_id
    {tm : List Char → List Char → Option (List Char × List Char × List Char)}
    {P : Char → Prop}
    (htm : ∀ (prev x : List Char), (∀ c ∈ x, P c) → tm prev x = none)
    {cs : List Char} (h : ∀ c ∈ cs, P c) : runScanPrev tm cs = cs :=
  scanPrev_id htm cs.length [] cs h

theorem tryBrace1_none {prev x : List Char} (h : ∀ c ∈ x, c ≠ '{') :
    tryBrace1 prev x = none := by
  unfold tryBrace1
  split
  next c rest => exact absurd rfl (h '{' (List.mem_cons_self _ _))
  next => rfl

theorem tryBrace2_none {x : List Char} (h : ∀ c ∈ x, c ≠ '{') :
    tryBrace2 x = none := by
  unfold tryBrace2
  split
  next rest => exact absurd rfl (h '{' (List.mem_cons_self _ _))
  next => rfl

theorem tryESup_none {x : List Char} (h : ∀ c ∈ x, c ≠ '{') :
    tryESup x = none := by
  unfold tryESup
  split
  next rest =>
    exact absurd rfl
      (h '{' (List.mem_cons_of_mem _ (List.mem_cons_of_mem _ (List.mem_cons_self _ _))))
  next => rfl

theorem tryAltCmdSpace_none {alts : List String} {cls : Char → Bool} {x : List Char}
    (ha : ∀ a ∈ alts, '\\' ∈ a.data) (h : ∀ c ∈ x, c ≠ '\\') :
    tryAltCmdSpace alts cls x = none := by
  induction alts with
  | nil => rfl
  | cons a as ih =>
    unfold tryAltCmdSpace
    rw [startsWithL_eq_false (ha a (List.mem_cons_self _ _)) h]
    show tryAltCmdSpace as cls x = none
    exact ih (fun a' ha' => ha a' (List.mem_cons_of_mem _ ha'))

theorem tryFracBrace_none {x : List Char} (h : ∀ c ∈ x, c ≠ '\\') :
    tryFracBrace x = none := by
  unfold tryFracBrace
  rw [startsWithL_eq_false (m := '\\') (by decide) h]
  rfl

theorem tryBinomBrace_none {x : List Char} (h : ∀ c ∈ x, c ≠ '\\') :
    tryBinomBrace x = none := by
  unfold tryBinomBrace
  rw [startsWithL_eq_false (m := '\\') (by decide) h]
  rfl

theorem tryWordDedup_none {x : List Char} (h : ∀ c ∈ x, c ≠ '\\') :
    tryWordDedup x = none := by
  unfold tryWordDedup
  have hs : startsWithL "\\left(".data (x.drop (x.takeWhile isAsciiAlpha).length) = false :=
    startsWithL_eq_false (m := '\\') (by decide)
      (fun c hc => h c (List.mem_of_mem_drop hc))
  dsimp only
  rw [hs]
  split <;> rfl

theorem tryRightarrow_none {x : List Char} (h : ∀ c ∈ x, c ≠ '\\') :
    tryRightarrow x = none := by
  unfold tryRightarrow
  rw [startsWithL_eq_false (m := '\\') (by decide) h]
  rfl

theorem tryLimDedup_none {x : List Char} (h : ∀ c ∈ x, c ≠ '\\') :
    tryLimDedup x = none := by
  unfold tryLimDedup
  rw [startsWithL_eq_false (m := '\\') (by decide) h]
  rfl

theorem tryBinomParen_none {x : List Char} (h : ∀ c ∈ x, c ≠ '\\') :
    tryBinomParen x = none := by
  unfold tryBinomParen
  rw [startsWithL_eq_false (m := '\\') (by decide) h]
  rfl

theorem cdotChar_id {cs : List Char} (h : ∀ c ∈ cs, c ≠ '⋅') : cdotChar cs = cs := by
  unfold cdotChar
  induction cs with
  | nil => rfl
  | cons c rest ih =>
    rw [List.flatMap_cons, if_neg (h c (List.mem_cons_self _ _)),
      ih (fun c hc => h c (List.mem_cons_of_mem _ hc))]
    rfl

/-! #### The two whitespace-deletion rules and their fixed points -/

def hasWsUnd : List Char → Bool
  | [] => false
  | c :: rest => (isWsPy c && firstNonWs rest == some '_') || hasWsUnd rest

def hasWsCar : List Char → Bool
  | [] => false
  | c :: rest => (isWsPy c && firstNonWs rest == some '^') || hasWsCar rest

theorem mem_wsUnd {c : Char} {s : List Char} (h : c ∈ wsUnd s) : c ∈ s := by
  induction s with
  | nil => cases h
  | cons a rest ih =>
    rw [wsUnd] at h
    by_cases hc : (isWsPy a && firstNonWs rest == some '_') = true
    · rw [if_pos hc] at h
      exact List.mem_cons_of_mem _ (ih h)
    · rw [if_neg hc] at h
      rcases List.mem_cons.mp h with rfl | h'
      · exact List.mem_cons_self _ _
      · exact List.mem_cons_of_mem _ (ih h')

theorem mem_wsCar {c : Char} {s : List Char} (h : c ∈ wsCar s) : c ∈ s := by
  induction s with
  | nil => cases h
  | cons a rest ih =>
    rw [wsCar] at h
    by_cases hc : (isWsPy a && firstNonWs rest == some '^') = true
    · rw [if_pos hc] at h
      exact List.mem_cons_of_mem _ (ih h)
    · rw [if_neg hc] at h
      rcases List.mem_cons.mp h with rfl | h'
      · exact List.mem_cons_self _ _
      · exact List.mem_cons_of_mem _ (ih h')

theorem firstNonWs_cons_ws {a : Char} {rest : List Char} (ha : isWsPy a = true) :
    firstNonWs (a :: rest) = firstNonWs rest := by
  unfold firstNonWs
  rw [List.dropWhile_cons, if_pos ha]

theorem firstNonWs_cons_not_ws {a : Char} {rest : List Char} (ha : isWsPy a = false) :
    firstNonWs (a :: rest) = some a := by
  unfold firstNonWs
  rw [List.dropWhile_cons, if_neg (by rw [ha]; exact Bool.false_ne_true)]
  rfl

theorem firstNonWs_wsUnd (s : List Char) : firstNonWs (wsUnd s) = firstNonWs s := by
  induction s with
  | nil => rfl
  | cons a rest ih =>
    rw [wsUnd]
    by_cases hc : (isWsPy a && firstNonWs rest == some '_') = true
    · rw [if_pos hc, ih]
      have ha : isWsPy a = true := by
        rw [Bool.and_eq_true] at hc
        exact hc.1
      rw [firstNonWs_cons_ws ha]
    · rw [if_neg hc]
      by_cases ha : isWsPy a = true
      · rw [firstNonWs_cons_ws ha, firstNonWs_cons_ws ha, ih]
      · have ha' : isWsPy a = false := Bool.not_eq_true _ ▸ Bool.of_not_eq_true ha
        rw [firstNonWs_cons_not_ws ha', firstNonWs_cons_not_ws ha']

theorem firstNonWs_wsCar (s : List Char) : firstNonWs (wsCar s) = firstNonWs s := by
  induction s with
  | nil => rfl
  | cons a rest ih =>
    rw [wsCar]
    by_cases hc : (isWsPy a && firstNonWs rest == some '^') = true
    · rw [if_pos hc, ih]
      have ha : isWsPy a = true := by
        rw [Bool.and_eq_true] at hc
        exact hc.1
      rw [firstNonWs_cons_ws ha]
    · rw [if_neg hc]
      by_cases ha : isWsPy a = true
      · rw [firstNonWs_cons_ws ha, firstNonWs_cons_ws ha, ih]
      · have ha' : isWsPy a = false := Bool.not_eq_true _ ▸ Bool.of_not_eq_true ha
        rw [firstNonWs_cons_not_ws ha', firstNonWs_cons_not_ws ha']

theorem hasWsUnd_wsUnd (s : List Char) : hasWsUnd (wsUnd s) = false := by
  induction s with
  | nil => rfl
  | cons a rest ih =>
    rw [wsUnd]
    by_cases hc : (isWsPy a && firstNonWs rest == some '_') = true
    · rw [if_pos hc]; exact ih
    · rw [if_neg hc, hasWsUnd, firstNonWs_wsUnd, ih]
      rw [Bool.or_false]
      exact Bool.not_eq_true _ ▸ Bool.of_not_eq_true hc

theorem hasWsCar_wsCar (s : List Char) : hasWsCar (wsCar s) = false := by
  induction s with
  | nil => rfl
  | cons a rest ih =>
    rw [wsCar]
    by_cases hc : (isWsPy a && firstNonWs rest == some '^') = true
    · rw [if_pos hc]; exact ih
    · rw [if_neg hc, hasWsCar, firstNonWs_wsCar, ih]
      rw [Bool.or_false]
      exact Bool.not_eq_true _ ▸ Bool.of_not_eq_true hc

theorem hasWsUnd_wsCar {s : List Char} (h : hasWsUnd s = false) :
    hasWsUnd (wsCar s) = false := by
  induction s with
  | nil => rfl
  | cons a rest ih =>
    rw [hasWsUnd, Bool.or_eq_false_iff] at h
    rw [wsCar]
    by_cases hc : (isWsPy a && firstNonWs rest == some '^') = true
    · rw [if_pos hc]; exact ih h.2
    · rw [if_neg hc, hasWsUnd, firstNonWs_wsCar, ih h.2, h.1]
      rfl

theorem wsUnd_id {s : List Char} (h : hasWsUnd s = false) : wsUnd s = s := by
  induction s with
  | nil => rfl
  | cons a rest ih =>
    rw [hasWsUnd, Bool.or_eq_false_iff] at h
    rw [wsUnd, if_neg (by rw [h.1]; exact Bool.false_ne_true), ih h.2]

theorem wsCar_id {s : List Char} (h : hasWsCar s = false) : wsCar s = s := by
  induction s with
  | nil => rfl
  | cons a rest ih =>
    rw [hasWsCar, Bool.or_eq_false_iff] at h
    rw [wsCar, if_neg (by rw [h.1]; exact Bool.false_ne_true), ih h.2]

/-- The character exclusions under which every rule of the normalizer
except the two whitespace deletions is inert. -/
def plainChar (c : Char) : Prop := c ≠ '{' ∧ c ≠ '}' ∧ c ≠ '\\' ∧ c ≠ '⋅'

instance plainChar.instDecidable : DecidablePred plainChar := fun c => by
  unfold plainChar
  infer_instance

theorem normalizeRoot_plain {x : List Char} (h : ∀ c ∈ x, plainChar c) :
    normalizeRoot x = wsCar (wsUnd x) := by
  have hnb : ∀ c ∈ x, c ≠ '{' := fun c hc => (h c hc).1
  have hns : ∀ c ∈ x, c ≠ '\\' := fun c hc => (h c hc).2.2.1
  have hy : ∀ c ∈ wsCar (wsUnd x), plainChar c :=
    fun c hc => h c (mem_wsUnd (mem_wsCar hc))
  have hys : ∀ c ∈ wsCar (wsUnd x), c ≠ '\\' := fun c hc => (hy c hc).2.2.1
  have hyb : ∀ c ∈ wsCar (wsUnd x), c ≠ '{' := fun c hc => (hy c hc).1
  have hyd : ∀ c ∈ wsCar (wsUnd x), c ≠ '⋅' := fun c hc => (hy c hc).2.2.2
  have hclean : cleanOutput x = wsCar (wsUnd x) := by
    unfold cleanOutput
    rw [hasMarker_eq_false hns]
    show fracBraceFix (partialFix (wsCar (wsUnd
      (runScan tryBrace2 (runScanPrev tryBrace1 x))))) = wsCar (wsUnd x)
    rw [runScanPrev_id (fun prev y hp => tryBrace1_none hp) hnb,
      runScan_id (fun y hp => tryBrace2_none hp) hnb]
    unfold partialFix fracBraceFix
    rw [runScan_id (fun y hp => tryAltCmdSpace_none (by decide) hp) hys,
      runScan_id (fun y hp => tryFracBrace_none hp) hys]
  unfold normalizeRoot
  rw [hclean]
  unfold applyPost
  unfold dedupESup dedupWord upsilonFix gammaFix rightarrowFix limDedup
    existsForallFix binomParenFix cdotSpace approxFix partialFix
  rw [runScan_id (fun y hp => tryBinomBrace_none hp) hys,
    runScan_id (fun y hp => tryESup_none hp) hyb]
  rw [runScan_id (fun y hp => tryWordDedup_none hp) hys,
    runScan_id (fun y hp => tryAltCmdSpace_none (by decide) hp) hys,
    runScan_id (fun y hp => tryAltCmdSpace_none (by decide) hp) hys,
    runScan_id (fun y hp => tryAltCmdSpace_none (by decide) hp) hys,
    runScan_id (fun y hp => tryRightarrow_none hp) hys,
    cdotChar_id hyd,
    runScan_id (fun y hp => tryLimDedup_none hp) hys,
    runScan_id (fun y hp => tryAltCmdSpace_none (by decide) hp) hys,
    runScan_id (fun y hp => tryBinomParen_none hp) hys,
    runScan_id (fun y hp => tryAltCmdSpace_none (by decide) hp) hys,
    runScan_id (fun y hp => tryAltCmdSpace_none (by decide) hp) hys,
    runScan_id (fun y hp => tryAltCmdSpace_none (by decide) hp) hys]

/-- C2 counterexample: the root-level normalization is not idempotent;
a doubly-braced single character loses one brace level per pass. -/
theorem C2_cex :
    normalizeRoot "\x7b\x7ba\x7d\x7d".data = "\x7ba\x7d".data ∧
    normalizeRoot (normalizeRoot "\x7b\x7ba\x7d\x7d".data) = "a".data ∧
    normalizeRoot (normalizeRoot "\x7b\x7ba\x7d\x7d".data) ≠ normalizeRoot "\x7b\x7ba\x7d\x7d".data := by
  refine ⟨by decide, by decide, by decide⟩

/-- C2 amended: the root-level normalization pass (cleaning followed by
post-processing) is idempotent on strings containing no brace,
backslash, or bullet-operator characters, where it reduces to deleting
the whitespace that precedes subscript and superscript markers; on
arbitrary strings idempotence fails (nested single-character brace
groups lose one level per pass). -/
theorem C2_thm (cs : List Char) (h : ∀ c ∈ cs, plainChar c) :
    normalizeRoot (normalizeRoot cs) = normalizeRoot cs := by
  have hy : ∀ c ∈ wsCar (wsUnd cs), plainChar c :=
    fun c hc => h c (mem_wsUnd (mem_wsCar hc))
  rw [normalizeRoot_plain h, normalizeRoot_plain hy]
  have h1 : hasWsUnd (wsCar (wsUnd cs)) = false :=
    hasWsUnd_wsCar (hasWsUnd_wsUnd cs)
  rw [wsUnd_id h1, wsCar_id (hasWsCar_wsCar (wsUnd cs))]

theorem C2_witness :
    (∀ c ∈ "x ^2  _3".data, plainChar c) ∧
    normalizeRoot (normalizeRoot "x ^2  _3".data) = normalizeRoot "x ^2  _3".data ∧
    normalizeRoot "x ^2  _3".data = "x^2_3".data := by
  refine ⟨by decide, C2_thm _ (by decide), by decide⟩

/-! ### C7: symbol substitution in text runs -/

theorem startsWithL_append_self (p t : List Char) : startsWithL p (p ++ t) = true := by
  induction p with
  | nil => rfl
  | cons c cs ih =>
    rw [List.cons_append, startsWithL, ih]
    simp

theorem containsSub_of_startsWith {p cs : List Char} (h : startsWithL p cs = true) :
    containsSub p cs = true := by
  cases cs with
  | nil => rw [containsSub]; exact h
  | cons a as => rw [containsSub, h]; rfl

theorem containsSub_append_left {p t : List Char} (s : List Char)
    (h : containsSub p t = true) : containsSub p (s ++ t) = true := by
  induction s with
  | nil => exact h
  | cons a as ih =>
    rw [List.cons_append, containsSub, ih]
    simp

/-- Character provenance for a plain scanner: every output character
comes from the input or from the matcher's inserted characters. -/
theorem scanStep_mem {tm : List Char → Option (List Char × List Char)}
    {extra : List Char}
    (htm : ∀ x repl rest, tm x = some (repl, rest) →
      (∀ c ∈ repl, c ∈ x ∨ c ∈ extra) ∧ (∀ c ∈ rest, c ∈ x)) :
    ∀ (fuel : Nat) (cs : List Char) (c : Char),
      c ∈ scanStep tm fuel cs → c ∈ cs ∨ c ∈ extra := by
  intro fuel
  induction fuel with
  | zero => intro cs c hc; exact Or.inl hc
  | succ n ih =>
    intro cs c hc
    cases cs with
    | nil => cases hc
    | cons a rest =>
      rw [scanStep] at hc
      cases hm : tm (a :: rest) with
      | some pr =>
        obtain ⟨repl, rest'⟩ := pr
        rw [hm] at hc
        rcases List.mem_append.mp hc with h1 | h1
        · exact (htm _ _ _ hm).1 c h1
        · rcases ih rest' c h1 with h2 | h2
          · exact Or.inl ((htm _ _ _ hm).2 c h2)
          · exact Or.inr h2
      | none =>
        rw [hm] at hc
        rcases List.mem_cons.mp hc with rfl | h1
        · exact Or.inl (List.mem_cons_self _ _)
        · rcases ih rest c h1 with h2 | h2
          · exact Or.inl (List.mem_cons_of_mem _ h2)
          · exact Or.inr h2

theorem scanPrev_mem
    {tm : List Char → List Char → Option (List Char × List Char × List Char)}
    {extra : List Char}
    (htm : ∀ prev x consumed repl rest, tm prev x = some (consumed, repl, rest) →
      (∀ c ∈ repl, c ∈ x ∨ c ∈ extra) ∧ (∀ c ∈ rest, c ∈ x)) :
    ∀ (fuel : Nat) (prev cs : List Char) (c : Char),
      c ∈ scanPrev tm fuel prev cs → c ∈ cs ∨ c ∈ extra := by
  intro fuel
  induction fuel with
  | zero => intro prev cs c hc; exact Or.inl hc
  | succ n ih =>
    intro prev cs c hc
    cases cs with
    | nil => cases hc
    | cons a rest =>
      rw [scanPrev] at hc
      cases hm : tm prev (a :: rest) with
      | some pr =>
        obtain ⟨consumed, repl, rest'⟩ := pr
        rw [hm] at hc
        rcases List.mem_append.mp hc with h1 | h1
        · exact (htm _ _ _ _ _ hm).1 c h1
        · rcases ih _ rest' c h1 with h2 | h2
          · exact Or.inl ((htm _ _ _ _ _ hm).2 c h2)
          · exact Or.inr h2
      | none =>
        rw [hm] at hc
        rcases List.mem_cons.mp hc with rfl | h1
        · exact Or.inl (List.mem_cons_self _ _)
        · rcases ih _ rest c h1 with h2 | h2
          · exact Or.inl (List.mem_cons_of_mem _ h2)
          · exact Or.inr h2

theorem tryAltCmdSpace_provenance {alts : List String} {cls : Char → Bool} :
    ∀ (x repl rest : List Char), tryAltCmdSpace alts cls x = some (repl, rest) →
      (∀ c ∈ repl, c ∈ x ∨ c ∈ [' ']) ∧ (∀ c ∈ rest, c ∈ x) := by
  induction alts with
  | nil => intro x repl rest h; cases h
  | cons a as ih =>
    intro x repl rest h
    unfold tryAltCmdSpace at h
    by_cases hs : startsWithL a.data x = true
    · rw [if_pos hs] at h
      cases hd : x.drop a.data.length with
      | nil =>
        rw [hd] at h
        exact Option.noConfusion h
      | cons l rest' =>
        rw [hd] at h
        have h' : (if cls l = true then
            some (a.data ++ [' ', l], rest') else none) = some (repl, rest) := h
        by_cases hcl : cls l = true
        · rw [if_pos hcl] at h'
          injection h' with h1
          injection h1 with hrepl hrest
          subst hrepl
          subst hrest
          refine ⟨?_, ?_⟩
          · intro c hc
            rcases List.mem_append.mp hc with h2 | h2
            · exact Or.inl (startsWithL_mem hs c h2)
            · rcases List.mem_cons.mp h2 with rfl | h3
              · exact Or.inr (List.mem_cons_self _ _)
              · rcases List.mem_cons.mp h3 with rfl | h4
                · refine Or.inl (List.mem_of_mem_drop (n := a.data.length) ?_)
                  rw [hd]
                  exact List.mem_cons_self _ _
                · cases h4
          · intro c hc
            refine List.mem_of_mem_drop (n := a.data.length) ?_
            rw [hd]
            exact List.mem_cons_of_mem _ hc
        · rw [if_neg hcl] at h'
          exact Option.noConfusion h'
    · rw [if_neg hs] at h
      exact ih x repl rest h

theorem tryFunc_provenance {nm rp : List Char} :
    ∀ (prev x consumed repl rest : List Char),
      tryFunc nm rp prev x = some (consumed, repl, rest) →
      (∀ c ∈ repl, c ∈ x ∨ c ∈ rp) ∧ (∀ c ∈ rest, c ∈ x) := by
  intro prev x consumed repl rest h
  unfold tryFunc at h
  split at h
  · dsimp only at h
    split at h
    · injection h with h1
      injection h1 with hcons h2
      injection h2 with hrepl hrest
      subst hrepl
      subst hrest
      exact ⟨fun c hc => Or.inr hc, fun c hc => List.mem_of_mem_drop hc⟩
    · exact Option.noConfusion h
  · exact Option.noConfusion h

/-- Every `MATH_SYMBOLS` key is a non-ASCII character. -/
theorem lookupSym_key_ge (g : Char) (v : String) (h : lookupSym g = some v) :
    128 ≤ g.toNat := by
  unfold lookupSym at h
  cases hf : MATH_SYMBOLS.find? (fun p => p.1 == g) with
  | none => rw [hf] at h; cases h
  | some pr =>
    have hmem := List.mem_of_find?_eq_some hf
    have hkey := List.find?_some hf
    have hge : ∀ q ∈ MATH_SYMBOLS, 128 ≤ q.1.toNat := by decide
    have := hge pr hmem
    rwa [eq_of_beq hkey] at this

/-- Every `MATH_SYMBOLS` value is pure ASCII. -/
theorem lookupSym_value_ascii (g : Char) (v : String) (h : lookupSym g = some v) :
    ∀ c ∈ v.data, c.toNat < 128 := by
  unfold lookupSym at h
  cases hf : MATH_SYMBOLS.find? (fun p => p.1 == g) with
  | none => rw [hf] at h; cases h
  | some pr =>
    rw [hf] at h
    injection h with h1
    have hmem := List.mem_of_find?_eq_some hf
    have hascii : ∀ q ∈ MATH_SYMBOLS, ∀ c ∈ q.2.data, c.toNat < 128 := by decide
    exact h1 ▸ hascii pr hmem

theorem smartSym_cons (c : Char) (cs : List Char) :
    smartSym (c :: cs) = (match lookupSym c with
      | some v =>
        v.data ++
          (if headIsBackslash v.data &&
              (match cs with | d :: _ => isalphaPy d | [] => false)
           then [' '] else []) ++ smartSym cs
      | none => c :: smartSym cs) := rfl

/-- The condition under which `smart_symbol_convert` appends a separating
space after a substituted command. -/
def spacerCond (v : String) (cs : List Char) : Bool :=
  headIsBackslash v.data && (match cs with | d :: _ => isalphaPy d | [] => false)

theorem smartSym_cons_some (c : Char) (v : String) (cs : List Char)
    (hx : lookupSym c = some v) :
    smartSym (c :: cs) =
      v.data ++ (if spacerCond v cs then [' '] else []) ++ smartSym cs := by
  rw [smartSym_cons, hx]
  rfl

theorem smartSym_cons_none (c : Char) (cs : List Char) (hx : lookupSym c = none) :
    smartSym (c :: cs) = c :: smartSym cs := by
  rw [smartSym_cons, hx]

/-- A table key never survives `smart_symbol_convert`: every occurrence
is replaced, and the replacements are ASCII. -/
theorem smartSym_no_key {g : Char} {v : String} (hlook : lookupSym g = some v) :
    ∀ xs : List Char, g ∉ smartSym xs := by
  have hg := lookupSym_key_ge g v hlook
  intro xs
  induction xs with
  | nil => intro h; cases h
  | cons x rest ih =>
    intro h
    cases hx : lookupSym x with
    | some w =>
      rw [smartSym_cons_some x w rest hx] at h
      rcases List.mem_append.mp h with h1 | h1
      · rcases List.mem_append.mp h1 with h2 | h2
        · have := lookupSym_value_ascii x w hx g h2
          omega
        · by_cases hc : spacerCond w rest = true
          · rw [if_pos hc] at h2
            rcases List.mem_cons.mp h2 with hsp | hsp
            · rw [hsp] at hg
              exact absurd hg (by decide)
            · cases hsp
          · rw [if_neg hc] at h2
            cases h2
      · exact ih h1
    | none =>
      rw [smartSym_cons_none x rest hx] at h
      rcases List.mem_cons.mp h with rfl | h1
      · rw [hlook] at hx; cases hx
      · exact ih h1

theorem greekSpaceFix_no_key {g : Char} (hg : 128 ≤ g.toNat) {s : List Char}
    (h : g ∉ s) : g ∉ greekSpaceFix s := by
  intro hmem
  rcases scanStep_mem tryAltCmdSpace_provenance s.length s g hmem with h1 | h1
  · exact h h1
  · rcases List.mem_cons.mp h1 with rfl | h2
    · exact absurd hg (by decide)
    · cases h2

theorem substFunc_no_key {g : Char} {nm rp : List Char}
    (hrp : g ∉ rp) {s : List Char} (h : g ∉ s) : g ∉ substFunc nm rp s := by
  intro hmem
  rcases scanPrev_mem tryFunc_provenance s.length [] s g hmem with h1 | h1
  · exact h h1
  · exact hrp h1

theorem convFuncNames_no_key {g : Char} (hg : 128 ≤ g.toNat) {s : List Char}
    (h : g ∉ s) : g ∉ convFuncNames s := by
  unfold convFuncNames
  by_cases hb : headIsBackslash s = true
  · rw [if_pos hb]; exact h
  · rw [if_neg hb]
    have hfn : ∀ q ∈ FUNCTION_NAMES, ∀ c ∈ q.2.data, c.toNat < 128 := by decide
    have hfold : ∀ (l : List (String × String)),
        (∀ q ∈ l, ∀ c ∈ q.2.data, c.toNat < 128) →
        ∀ x : List Char, g ∉ x →
          g ∉ l.foldl (fun acc p => substFunc p.1.data p.2.data acc) x := by
      intro l
      induction l with
      | nil => intro _ x hx; exact hx
      | cons q qs ih =>
        intro hq x hx
        rw [List.foldl_cons]
        apply ih (fun q' hq' => hq q' (List.mem_cons_of_mem _ hq'))
        apply substFunc_no_key _ hx
        intro hmem
        have := hq q (List.mem_cons_self _ _) g hmem
        omega
    exact hfold FUNCTION_NAMES hfn s h

/-- After the full `parse_r` text pipeline no symbol-table key remains. -/
theorem parseRtext_no_key {g : Char} {v : String} (hlook : lookupSym g = some v)
    (tx : List Char) : g ∉ parseRtext tx := by
  have hg := lookupSym_key_ge g v hlook
  unfold parseRtext
  apply convFuncNames_no_key hg
  apply greekSpaceFix_no_key hg
  exact smartSym_no_key hlook _

/-- C7 counterexample: in the run text xⅆet the differential glyph ⅆ is
rewritten to the thin-space differential before symbol substitution, and
function-name substitution then absorbs the d into \det, so the final
run conversion does not contain the glyph's substituted command, contrary
to the claim. -/
theorem C7_cex :
    lookupSym 'ⅆ' = some "\\, d" ∧
    'ⅆ' ∈ "xⅆet".data ∧
    parse (some "oMath")
      (Elem.mk "r" none [] [Elem.mk "t" none "xⅆet".data []]) = "x \\, \\det".data ∧
    containsSub ("\\, d").data
      (parse (some "oMath")
        (Elem.mk "r" none [] [Elem.mk "t" none "xⅆet".data []])) = false := by
  refine ⟨by decide, by decide, by decide, by decide⟩

/-- C7 amended: for every text-run node whose text contains a
symbol-table glyph, the converted output never contains the original
glyph; the symbol-substitution step itself emits the glyph's substituted
command (the full run pipeline may rewrite it further, as the
counterexample shows); and at substitution time a separating space is
inserted exactly when the substituted command begins with a backslash
and the next character is alphabetic: the third conjunct gives the
insertion direction, and the fourth shows no space is inserted when the
command does not begin with a backslash or no alphabetic character
follows. -/
theorem C7_thm :
    (∀ (p : Option String) (e : Elem) (g : Char) (v : String), e.tag = "r" →
      lookupSym g = some v → g ∈ collectT e → g ∉ parse p e) ∧
    (∀ (xs : List Char) (g : Char) (v : String),
      lookupSym g = some v → g ∈ xs →
      containsSub v.data (smartSym xs) = true) ∧
    (∀ (g : Char) (v : String) (c : Char) (rest : List Char),
      lookupSym g = some v → headIsBackslash v.data = true → isalphaPy c = true →
      smartSym (g :: c :: rest) = v.data ++ ' ' :: smartSym (c :: rest)) ∧
    (∀ (g : Char) (v : String) (cs : List Char),
      lookupSym g = some v →
      (headIsBackslash v.data = false ∨
        ∀ (c : Char) (rest : List Char), cs = c :: rest → isalphaPy c = false) →
      smartSym (g :: cs) = v.data ++ smartSym cs) := by
  refine ⟨?_, ?_, ?_, ?_⟩
  · intro p e g v ht hlook _
    rw [parse_eq_r ht]
    exact parseRtext_no_key hlook _
  · intro xs g v hlook hmem
    induction xs with
    | nil => cases hmem
    | cons x rest ih =>
      cases hx : lookupSym x with
      | some w =>
        rw [smartSym_cons_some x w rest hx]
        rcases List.mem_cons.mp hmem with rfl | h1
        · rw [hlook] at hx
          injection hx with hv
          subst hv
          rw [List.append_assoc]
          exact containsSub_of_startsWith (startsWithL_append_self _ _)
        · exact containsSub_append_left _ (ih h1)
      | none =>
        rw [smartSym_cons_none x rest hx]
        rcases List.mem_cons.mp hmem with rfl | h1
        · rw [hlook] at hx; cases hx
        · have hc := ih h1
          rw [containsSub, hc]
          simp
  · intro g v c rest hlook hhead halpha
    rw [smartSym_cons_some g v (c :: rest) hlook]
    rw [show spacerCond v (c :: rest) =
        (headIsBackslash v.data && isalphaPy c) from rfl]
    rw [hhead, halpha]
    simp
  · intro g v cs hlook hno
    rw [smartSym_cons_some g v cs hlook]
    have hsp : spacerCond v cs = false := by
      rcases hno with hb | hna
      · unfold spacerCond
        rw [hb]
        rfl
      · cases cs with
        | nil =>
          unfold spacerCond
          exact Bool.and_false _
        | cons c rest =>
          rw [show spacerCond v (c :: rest) =
              (headIsBackslash v.data && isalphaPy c) from rfl]
          rw [hna c rest rfl]
          exact Bool.and_false _
    rw [hsp]
    simp

theorem C7_witness :
    ('θ' ∉ parse (some "oMath")
      (Elem.mk "r" none [] [Elem.mk "t" none "θx".data []])) ∧
    containsSub ("\\theta").data (smartSym "θx".data) = true ∧
    smartSym ('θ' :: 'x' :: []) = ("\\theta").data ++ ' ' :: smartSym ['x'] ∧
    smartSym ('°' :: 'C' :: []) = ("^\\circ").data ++ smartSym ['C'] := by
  refine ⟨C7_thm.1 (some "oMath") _ 'θ' "\\theta" rfl rfl (by decide),
    C7_thm.2.1 "θx".data 'θ' "\\theta" rfl (by decide),
    C7_thm.2.2.1 'θ' "\\theta" 'x' [] rfl (by decide) (by decide),
    C7_thm.2.2.2 '°' "^\\circ" ['C'] rfl (Or.inl (by decide))⟩

end Omml
